import Mathlib

set_option maxHeartbeats 1600000

/-!
Shallow embedding of the query-manager core (join engine, result store,
result tracking) and proofs of its specified properties.

Rows are JavaScript objects: ordered association lists of field name to value,
with unique keys.  JavaScript numeric values are modelled as rationals
(IEEE float formatting of non-integral numbers is abstracted by an injective
placeholder rendering).  JavaScript `undefined` and `null` are kept distinct,
since the source distinguishes them in places.  Strict equality (`===`) on
compound values (objects, arrays, dates) is reference equality in JavaScript;
rows compared by the join engine originate from distinct parsed result sets,
so compound values on the two sides are never aliased and `===` on them is
modelled as false.
-/

namespace QM

/-- JValue models a JavaScript runtime value as it appears in query result rows. -/
inductive JValue where
  | null
  | undef
  | bool (b : Bool)
  | num (q : Rat)
  | str (s : String)
  | date (ms : Int)
  | arr (elems : List JValue)
  | obj (fields : List (String × JValue))
  deriving Repr

-- Structural boolean equality on JValue, with companions for the nested lists.
mutual
def JValue.beq : JValue → JValue → Bool
  | .null, .null => true
  | .undef, .undef => true
  | .bool a, .bool b => a == b
  | .num a, .num b => a == b
  | .str a, .str b => a == b
  | .date a, .date b => a == b
  | .arr a, .arr b => beqArr a b
  | .obj a, .obj b => beqObj a b
  | _, _ => false
def beqArr : List JValue → List JValue → Bool
  | [], [] => true
  | x :: xs, y :: ys => JValue.beq x y && beqArr xs ys
  | _, _ => false
def beqObj : List (String × JValue) → List (String × JValue) → Bool
  | [], [] => true
  | (k1, v1) :: xs, (k2, v2) :: ys => k1 == k2 && JValue.beq v1 v2 && beqObj xs ys
  | _, _ => false
end

mutual
theorem JValue.beq_iff_eq : ∀ (a b : JValue), JValue.beq a b = true ↔ a = b
  | .null, b => by cases b <;> simp [JValue.beq]
  | .undef, b => by cases b <;> simp [JValue.beq]
  | .bool x, b => by cases b <;> simp [JValue.beq]
  | .num x, b => by cases b <;> simp [JValue.beq]
  | .str x, b => by cases b <;> simp [JValue.beq]
  | .date x, b => by cases b <;> simp [JValue.beq]
  | .arr xs, b => by
    cases b <;> simp [JValue.beq]
    rename_i ys
    exact beqArr_iff_eq xs ys
  | .obj fs, b => by
    cases b <;> simp [JValue.beq]
    rename_i gs
    exact beqObj_iff_eq fs gs
theorem beqArr_iff_eq : ∀ (xs ys : List JValue), beqArr xs ys = true ↔ xs = ys
  | [], ys => by cases ys <;> simp [beqArr]
  | x :: xs, ys => by
    cases ys with
    | nil => simp [beqArr]
    | cons y ys =>
      simp [beqArr, JValue.beq_iff_eq x y, beqArr_iff_eq xs ys]
theorem beqObj_iff_eq : ∀ (xs ys : List (String × JValue)), beqObj xs ys = true ↔ xs = ys
  | [], ys => by cases ys <;> simp [beqObj]
  | (k, v) :: xs, ys => by
    cases ys with
    | nil => simp [beqObj]
    | cons p ys =>
      obtain ⟨k2, v2⟩ := p
      simp [beqObj, JValue.beq_iff_eq v v2, beqObj_iff_eq xs ys, and_assoc]
end

instance : BEq JValue := ⟨JValue.beq⟩

instance : LawfulBEq JValue where
  eq_of_beq h := (JValue.beq_iff_eq _ _).mp h
  rfl := (JValue.beq_iff_eq _ _).mpr rfl

instance : DecidableEq JValue := fun a b =>
  decidable_of_iff (JValue.beq a b = true) (JValue.beq_iff_eq a b)

/-- Row models a JavaScript object holding one result row: field names with values, in
insertion order.  JavaScript objects cannot repeat keys, so well-formed rows have
pairwise distinct keys. -/
abbrev Row := List (String × JValue)

/-- Property read on a row object, `row[k]`; missing properties read as undefined. -/
def Row.getProp (r : Row) (k : String) : JValue :=
  match r.find? (fun p => p.1 == k) with
  | some p => p.2
  | none => (.undef)

/-- Own-property presence on a row object, the JavaScript `k in row` test. -/
def Row.hasKey (r : Row) (k : String) : Bool :=
  r.any (fun p => p.1 == k)

/-- Property assignment `row[k] = v`: overwrites in place when the key exists,
otherwise appends the new field, as JavaScript objects do. -/
def Row.setProp (r : Row) (k : String) (v : JValue) : Row :=
  match r with
  | [] => [(k, v)]
  | (k0, v0) :: rest => if k0 == k then (k0, v) :: rest else (k0, v0) :: Row.setProp rest k v

/-- Truthiness of a JavaScript value (NaN is not modelled). -/
def JValue.truthy : JValue → Bool
  | .null => false
  | .undef => false
  | .bool b => b
  | .num q => q != 0
  | .str s => s != ""
  | _ => true

/-- Test for the JavaScript `typeof v === "object"` check: null, arrays, dates and
plain objects all have typeof object. -/
def JValue.isTypeofObject : JValue → Bool
  | .null => true
  | .arr _ => true
  | .obj _ => true
  | .date _ => true
  | _ => false

/-- Strict equality `===`.  Primitives compare by value; compound values (arrays,
objects, dates) compare by reference in JavaScript and values reaching the join
comparisons come from distinct parsed rows, so they are never aliased: modelled
as false. -/
def strictEq : JValue → JValue → Bool
  | .null, .null => true
  | .undef, .undef => true
  | .bool a, .bool b => a == b
  | .num a, .num b => a == b
  | .str a, .str b => a == b
  | _, _ => false

/-- Digit run converted to a number, for parseInt. -/
def digitsToNat (ds : List Char) : Nat :=
  ds.foldl (fun n c => n * 10 + (c.toNat - 48)) 0

/-- Model of parseInt(s, 10): optional leading spaces and sign, then a leading run
of digits; none when no digits are found (NaN). -/
def jsParseInt (s : String) : Option Int :=
  let cs := s.toList.dropWhile (fun c => c = ' ')
  match cs with
  | [] => none
  | c :: rest =>
    if c = '-' then
      let ds := rest.takeWhile (fun d => d.isDigit)
      if ds.isEmpty then none else some (-(Int.ofNat (digitsToNat ds)))
    else
      let ds := cs.takeWhile (fun d => d.isDigit)
      if ds.isEmpty then none else some (Int.ofNat (digitsToNat ds))

/-- Decode a string that is a canonical array index ("0", "1", ...). -/
def arrIndex? (k : String) : Option Nat :=
  match k.toNat? with
  | some n => if toString n == k then some n else none
  | none => none

/-- Rendering of a numeric value by String(); integers render exactly as in
JavaScript, non-integral rationals by an injective placeholder (JavaScript uses
shortest-round-trip decimal formatting, which this embedding abstracts). -/
def ratToJsString (q : Rat) : String :=
  if q.den = 1 then toString q.num else toString q.num ++ "/" ++ toString q.den

/-- Rendering of a Date by String(); JavaScript produces a long locale-independent
form, abstracted here by an injective placeholder containing the epoch value. -/
def dateToJsString (ms : Int) : String :=
  "Date(" ++ toString ms ++ ")"

-- Model of the JavaScript String(value) conversion used for composite join keys.
-- Arrays render as their elements joined with commas (null and undefined elements
-- render empty), plain objects as the Object prototype tag.
mutual
def jsToString : JValue → String
  | .null => "null"
  | .undef => "undefined"
  | .bool b => if b then "true" else "false"
  | .num q => ratToJsString q
  | .str s => s
  | .date ms => dateToJsString ms
  | .arr elems => String.intercalate "," (jsToStringElems elems)
  | .obj _ => "[object Object]"
def jsToStringElems : List JValue → List String
  | [] => []
  | .null :: rest => "" :: jsToStringElems rest
  | .undef :: rest => "" :: jsToStringElems rest
  | v :: rest => jsToString v :: jsToStringElems rest
end

/-- Property read `v[k]` on an arbitrary value; none models a thrown TypeError
(reading a property of null or undefined).  Array reads support canonical index
keys and length; other primitive property reads yield undefined. -/
def jsGetProp : JValue → String → Option JValue
  | .null, _ => none
  | .undef, _ => none
  | .obj fields, k => some (Row.getProp fields k)
  | .arr elems, k =>
    if k == "length" then some (.num elems.length)
    else
      some (match arrIndex? k with
            | some i => elems.getD i .undef
            | none => .undef)
  | _, _ => some (.undef)

/-- Own enumerable keys of a value, the Object.keys view used by the join
comparison: field names of plain objects, index strings of arrays, nothing for
dates and primitives. -/
def ownKeys : JValue → List String
  | .obj fs => fs.map Prod.fst
  | .arr es => (List.range es.length).map (fun i => toString i)
  | _ => []

/-- Own-property test, hasOwnProperty. -/
def hasOwn : JValue → String → Bool
  | .obj fs, k => fs.any (fun p => p.1 == k)
  | .arr es, k =>
    k == "length" || (match arrIndex? k with
                      | some i => decide (i < es.length)
                      | none => false)
  | _, _ => false

/-- Own-property read used together with hasOwn in the shallow object comparison. -/
def ownProp : JValue → String → JValue
  | .obj fs, k => Row.getProp fs k
  | .arr es, k =>
    if k == "length" then .num es.length
    else
      match arrIndex? k with
      | some i => es.getD i .undef
      | none => .undef
  | _, _ => (.undef)

/-- Index of the first occurrence of a character, or the length when absent. -/
def charIndexOf (cs : List Char) (c : Char) : Nat :=
  (cs.takeWhile (fun d => d ≠ c)).length

/-- One reduce step of the dot-path traversal in getNestedProperty.  A bracketed
segment reads prop[index] when the property holds an array and the index parses;
a plain segment reads the named property of a truthy object, turning a missing
(undefined) property into null.  none models a thrown TypeError, caught by the
surrounding try. -/
def getNestedStep (current : JValue) (key : String) : Option JValue :=
  let cs := key.toList
  if cs.contains '[' && cs.contains ']' then
    let i := charIndexOf cs '['
    let j := charIndexOf cs ']'
    let propName := String.mk (cs.take i)
    let a := min (i + 1) j
    let b := max (i + 1) j
    let indexStr := String.mk ((cs.drop a).take (b - a))
    match jsGetProp current propName with
    | none => none
    | some pv =>
      match pv, jsParseInt indexStr with
      | .arr elems, some idx =>
        some (if idx < 0 then .undef else elems.getD idx.toNat .undef)
      | _, _ => some .null
  else
    if current.truthy && current.isTypeofObject then
      match jsGetProp current key with
      | some v => some (if v == JValue.undef then .null else v)
      | none => some .null
    else some .null

/-- Translation of the private helper that resolves a dot/bracket path expression
against one row.  A path without dots is a plain property read (which can yield
undefined); the dotted case folds getNestedStep over the dot-separated segments,
starting at the row object, mapping a thrown error to null. -/
def getNestedProperty (r : Row) (path : String) : JValue :=
  if path == "" then .null
  else if !(path.toList.contains '.') then Row.getProp r path
  else
    match (path.splitOn ".").foldl
        (fun acc key =>
          match acc with
          | none => none
          | some cur => getNestedStep cur key)
        (some (JValue.obj r)) with
    | some v => v
    | none => .null

/-- Side of a pairwise join, selecting which key path of a condition applies. -/
inductive Side where
  | left
  | right

/-- One join condition: a key path on each side and an optional custom comparator. -/
structure JoinCondition where
  leftKey : String
  rightKey : String
  comparator : Option (JValue → JValue → Bool)

/-- Key path of a condition for one side of the join. -/
def JoinCondition.keyFor (c : JoinCondition) : Side → String
  | .left => c.leftKey
  | .right => c.rightKey

/-- Translation of the composite-key builder: for each condition, the resolved
value on the requested side rendered by String(), with the NULL sentinel for
null or undefined values, all joined by double colons. -/
def createMultiConditionKey (row : Option Row) (conds : List JoinCondition) (side : Side) : String :=
  match row with
  | none => "NULL"
  | some r =>
    let keyParts := conds.map (fun c =>
      let v := getNestedProperty r (c.keyFor side)
      if v == JValue.undef || v == JValue.null then "NULL" else jsToString v)
    String.intercalate "::" keyParts

/-- Test for an array value. -/
def JValue.isArr : JValue → Bool
  | .arr _ => true
  | _ => false

/-- Elements of an array value. -/
def JValue.arrElems : JValue → List JValue
  | .arr es => es
  | _ => []

/-- Equality of the two resolved values of one join condition, translated clause by
clause from the source: custom comparator first, then null/undefined leniency,
dates by epoch milliseconds, arrays elementwise by strict equality, typeof-object
pairs by shallow key comparison, and strict equality for the rest. -/
def compareOneCondition (c : JoinCondition) (leftRow rightRow : Row) : Bool :=
  let lv := getNestedProperty leftRow c.leftKey
  let rv := getNestedProperty rightRow c.rightKey
  match c.comparator with
  | some f => f lv rv
  | none =>
    if lv == JValue.null || lv == JValue.undef then
      rv == JValue.null || rv == JValue.undef
    else
      match lv, rv with
      | .date t1, .date t2 => t1 == t2
      | .arr xs, .arr ys =>
        xs.length == ys.length && (xs.zip ys).all (fun p => strictEq p.1 p.2)
      | l, r =>
        if l.isTypeofObject && r.isTypeofObject then
          if r == JValue.null then false
          else
            let lks := ownKeys l
            let rks := ownKeys r
            lks.length == rks.length &&
              lks.all (fun k => hasOwn r k && strictEq (ownProp l k) (ownProp r k))
        else strictEq l r

/-- Translation of the AND-combined re-verification of all join conditions on one
candidate pair; a missing row on either side compares false. -/
def compareJoinConditions (conds : List JoinCondition) (leftRow rightRow : Option Row) : Bool :=
  match leftRow, rightRow with
  | some l, some r => conds.all (fun c => compareOneCondition c l r)
  | _, _ => false

/-- Own enumerable fields seen by an object spread, used by the shallow conflict
merge: fields of a plain object, index-keyed elements of an array, nothing for a
date. -/
def spreadFields : JValue → Row
  | .obj fs => fs
  | .arr es => es.enum.map (fun p => (toString p.1, p.2))
  | _ => []

/-- Object-spread merge of two typeof-object values, as in a two-spread literal:
fields of the second assigned over fields of the first. -/
def jsSpreadMerge (a b : JValue) : Row :=
  (spreadFields b).foldl (fun acc p => Row.setProp acc p.1 p.2) (spreadFields a)

/-- Processing of one field of the right row inside the row merge: internal
underscore-prefixed fields are skipped; a conflicting key merges arrays by
concatenation, typeof-object values by a shallow spread, and anything else is
kept on the left with the right value stored under a right-prefixed key; an
absent key is simply added; an equal value is skipped. -/
def mergeField (acc : Row) (k : String) (v : JValue) : Row :=
  if k.startsWith "_" then acc
  else if acc.hasKey k && !(strictEq (acc.getProp k) v) then
    (let cur := acc.getProp k
     if cur.isArr && v.isArr then
       acc.setProp k (.arr (cur.arrElems ++ v.arrElems))
     else if cur.isTypeofObject && v.isTypeofObject &&
             !(cur == JValue.null) && !(v == JValue.null) then
       acc.setProp k (.obj (jsSpreadMerge cur v))
     else acc.setProp ("right_" ++ k) v)
  else if !(acc.hasKey k) then acc.setProp k v
  else acc

/-- Outcome of a caller-supplied transform closure: a thrown exception or a value. -/
inductive TransformOutcome where
  | thrown
  | value (v : JValue)

/-- Transform closure invoked with the merged row and the two original rows. -/
abbrev Transform := Row → Option Row → Option Row → TransformOutcome

/-- Translation of the row merge: shallow copy of the left row (empty object when
left is null), right fields folded in by mergeField, then the optional transform
applied, keeping the untransformed merge on exception or on a falsy return. -/
def mergeRows (leftRow rightRow : Option Row) (transform : Option Transform) : JValue :=
  let base : Row := match leftRow with
    | some l => l
    | none => []
  let merged : Row := match rightRow with
    | none => base
    | some rr => rr.foldl (fun acc p => mergeField acc p.1 p.2) base
  match transform with
  | none => .obj merged
  | some f =>
    match f merged leftRow rightRow with
    | .thrown => .obj merged
    | .value v => if v.truthy then v else .obj merged

/-- Join type of a strategy. -/
inductive JoinType where
  | inner
  | left
  | right
  | full
  deriving DecidableEq, Repr

/-- Composite key of a left row. -/
def leftKeyOf (conds : List JoinCondition) (l : Row) : String :=
  createMultiConditionKey (some l) conds .left

/-- Composite key of a right row. -/
def rightKeyOf (conds : List JoinCondition) (r : Row) : String :=
  createMultiConditionKey (some r) conds .right

/-- Lookup map from composite key to the list of right rows sharing it, with the
insertion-order bucket semantics of a JavaScript Map. -/
abbrev LookupMap := List (String × List Row)

/-- Addition of one right row to its bucket, appending at the end as the source
push does, creating the bucket on first use. -/
def lookupInsert (m : LookupMap) (k : String) (r : Row) : LookupMap :=
  match m with
  | [] => [(k, [r])]
  | (k0, rs) :: rest =>
    if k0 == k then (k0, rs ++ [r]) :: rest else (k0, rs) :: lookupInsert rest k r

/-- Bucket read of the lookup map; an absent key yields the empty candidate list. -/
def lookupGet (m : LookupMap) (k : String) : List Row :=
  match m.find? (fun p => p.1 == k) with
  | some p => p.2
  | none => []

/-- Construction of the lookup map over the whole right dataset, keyed by the
right-side composite key. -/
def buildLookupMap (rightDataset : List Row) (conds : List JoinCondition) : LookupMap :=
  rightDataset.foldl (fun m r => lookupInsert m (rightKeyOf conds r) r) []

/-- Addition to the matched-right-rows set.  The source Set is keyed by object
identity, but every row it receives is an element of the right dataset and both
bucket membership and the condition comparison depend only on row content, so
identity membership and structural membership coincide for the rows the set is
ever queried with; the set is modelled structurally. -/
def setAdd (s : List Row) (r : Row) : List Row :=
  if s.contains r then s else s ++ [r]

/-- Accumulator of the left-row loop of the exact join: matched right rows and
the joined output so far. -/
structure ExactAcc where
  matched : List Row
  out : List JValue

/-- Body of the candidate loop of the exact join: a candidate passing the full
condition re-check contributes a merged row (and is recorded as matched for
right/full joins); a failing candidate contributes nothing. -/
def exactMatchStep (conds : List JoinCondition) (jt : JoinType) (t : Option Transform)
    (leftRow : Row) (a : ExactAcc) (rightRow : Row) : ExactAcc :=
  if compareJoinConditions conds (some leftRow) (some rightRow) then
    { matched := if jt == JoinType.right || jt == JoinType.full then
                   setAdd a.matched rightRow
                 else a.matched,
      out := a.out ++ [mergeRows (some leftRow) (some rightRow) t] }
  else a

/-- Body of the left-row loop of the exact join: candidates are fetched from the
lookup map by composite key; when candidates exist, every candidate passing the
full condition re-check is merged in (and recorded as matched for right/full
joins); when none exist, a left or full join emits the left row merged with a
null counterpart. -/
def exactJoinStep (lookup : LookupMap) (conds : List JoinCondition) (jt : JoinType)
    (t : Option Transform) (acc : ExactAcc) (leftRow : Row) : ExactAcc :=
  let key := leftKeyOf conds leftRow
  let candidates := lookupGet lookup key
  if candidates.length > 0 then
    candidates.foldl (exactMatchStep conds jt t leftRow) acc
  else if jt == JoinType.left || jt == JoinType.full then
    { matched := acc.matched, out := acc.out ++ [mergeRows (some leftRow) none t] }
  else acc

/-- Translation of the exact hash join: build the lookup map from the right
dataset, run the left-row loop, and for right/full joins append every right row
that was never matched, merged with a null counterpart, in dataset order. -/
def performExactJoin (L R : List Row) (conds : List JoinCondition) (jt : JoinType)
    (t : Option Transform) : List JValue :=
  let lookup := buildLookupMap R conds
  let afterLeft := L.foldl (exactJoinStep lookup conds jt t) ⟨[], []⟩
  if jt == JoinType.right || jt == JoinType.full then
    afterLeft.out ++
      (R.filter (fun r => !(afterLeft.matched.contains r))).map
        (fun r => mergeRows none (some r) t)
  else afterLeft.out

/-- Right rows whose composite key coincides with the composite key of a given
left row, in dataset order. -/
def condBucket (R : List Row) (conds : List JoinCondition) (l : Row) : List Row :=
  R.filter (fun r => rightKeyOf conds r == leftKeyOf conds l)

/-- Test for a verified match between a left and right row: equal composite keys
and all conditions re-verified. -/
def verifiedMatch (conds : List JoinCondition) (l r : Row) : Bool :=
  rightKeyOf conds r == leftKeyOf conds l && compareJoinConditions conds (some l) (some r)

/-- Modelled from the spec: the contribution of one left row to a nested-loop
reference join.  When some right row shares the composite key, the key-sharing
rows passing the full condition re-check are merged in dataset order; when no
right row shares the key, a left or full join emits the left row merged with a
null counterpart. -/
def specLeftPart (R : List Row) (conds : List JoinCondition) (jt : JoinType)
    (t : Option Transform) (l : Row) : List JValue :=
  let bucket := condBucket R conds l
  if bucket.length > 0 then
    (bucket.filter (fun r => compareJoinConditions conds (some l) (some r))).map
      (fun r => mergeRows (some l) (some r) t)
  else if jt == JoinType.left || jt == JoinType.full then
    [mergeRows (some l) none t]
  else []

/-- Modelled from the spec: the unmatched-right tail of a nested-loop reference
join.  For right/full joins, every right row with no verified match among the
left rows is emitted once, merged with a null counterpart, in dataset order. -/
def specRightPart (L R : List Row) (conds : List JoinCondition) (jt : JoinType)
    (t : Option Transform) : List JValue :=
  if jt == JoinType.right || jt == JoinType.full then
    (R.filter (fun r => !(L.any (fun l => verifiedMatch conds l r)))).map
      (fun r => mergeRows none (some r) t)
  else []

/-- Modelled from the spec: nested-loop reference join against which the hash
join is verified. -/
def specExactJoin (L R : List Row) (conds : List JoinCondition) (jt : JoinType)
    (t : Option Transform) : List JValue :=
  L.flatMap (specLeftPart R conds jt t) ++ specRightPart L R conds jt t

theorem lookupGet_nil (k : String) : lookupGet [] k = [] := by
  simp [lookupGet, List.find?]

theorem lookupGet_cons (k1 : String) (rs : List Row) (rest : LookupMap) (k : String) :
    lookupGet ((k1, rs) :: rest) k = if k1 == k then rs else lookupGet rest k := by
  by_cases h : k1 = k
  · simp [lookupGet, List.find?, h]
  · have hb : (k1 == k) = false := by simp [h]
    simp [lookupGet, List.find?, hb]

theorem lookupGet_lookupInsert (m : LookupMap) (k0 : String) (r : Row) (k : String) :
    lookupGet (lookupInsert m k0 r) k
      = if k0 == k then lookupGet m k ++ [r] else lookupGet m k := by
  induction m with
  | nil =>
    by_cases h : k0 = k <;> simp [lookupInsert, lookupGet_cons, lookupGet_nil, h]
  | cons p rest ih =>
    obtain ⟨k1, rs⟩ := p
    by_cases h1 : k1 = k0
    · subst h1
      simp only [lookupInsert, beq_self_eq_true, if_true]
      by_cases h2 : k1 = k <;> simp [lookupGet_cons, h2]
    · have hb1 : (k1 == k0) = false := by simp [h1]
      simp only [lookupInsert, hb1, Bool.false_eq_true, if_false]
      by_cases h2 : k1 = k
      · have h0 : ¬k0 = k := fun hh => h1 (h2.trans hh.symm)
        simp [lookupGet_cons, h2, h0]
      · simp [lookupGet_cons, h2, ih]

theorem lookupGet_buildLookupMap (R : List Row) (conds : List JoinCondition) (k : String) :
    lookupGet (buildLookupMap R conds) k = R.filter (fun r => rightKeyOf conds r == k) := by
  have main : ∀ (rows : List Row) (m : LookupMap),
      lookupGet (rows.foldl (fun m r => lookupInsert m (rightKeyOf conds r) r) m) k
        = lookupGet m k ++ rows.filter (fun r => rightKeyOf conds r == k) := by
    intro rows
    induction rows with
    | nil => intro m; simp
    | cons r rest ih =>
      intro m
      by_cases h : rightKeyOf conds r = k <;>
        simp [List.foldl_cons, ih, lookupGet_lookupInsert, h, List.filter_cons]
  simpa [buildLookupMap, lookupGet_nil] using main R []

theorem mem_setAdd (s : List Row) (r x : Row) : x ∈ setAdd s r ↔ x ∈ s ∨ x = r := by
  by_cases h : s.contains r = true
  · have hr : r ∈ s := by simpa using h
    unfold setAdd
    rw [if_pos h]
    exact ⟨Or.inl, fun hx => hx.elim id (fun he => he ▸ hr)⟩
  · unfold setAdd
    rw [if_neg h]
    simp

theorem exactMatchFold_out (conds : List JoinCondition) (jt : JoinType) (t : Option Transform)
    (l : Row) (cands : List Row) :
    ∀ acc : ExactAcc,
      (cands.foldl (exactMatchStep conds jt t l) acc).out
        = acc.out ++
            ((cands.filter (fun r => compareJoinConditions conds (some l) (some r))).map
              (fun r => mergeRows (some l) (some r) t)) := by
  induction cands with
  | nil => intro acc; simp
  | cons r rest ih =>
    intro acc
    by_cases h : compareJoinConditions conds (some l) (some r) = true
    · simp [exactMatchStep, h, ih, List.filter_cons]
    · simp [exactMatchStep, h, ih, List.filter_cons]

theorem exactMatchFold_matched (conds : List JoinCondition) (jt : JoinType)
    (t : Option Transform) (l : Row) (cands : List Row) :
    ∀ (acc : ExactAcc) (x : Row),
      x ∈ (cands.foldl (exactMatchStep conds jt t l) acc).matched
        ↔ x ∈ acc.matched ∨ ((jt == JoinType.right || jt == JoinType.full) = true ∧
            ∃ r ∈ cands, compareJoinConditions conds (some l) (some r) = true ∧ x = r) := by
  induction cands with
  | nil => simp
  | cons r rest ih =>
    intro acc x
    rw [List.foldl_cons]
    by_cases h : compareJoinConditions conds (some l) (some r) = true
    · by_cases hjt : (jt == JoinType.right || jt == JoinType.full) = true
      · have hstep : exactMatchStep conds jt t l acc r
            = { matched := setAdd acc.matched r,
                out := acc.out ++ [mergeRows (some l) (some r) t] } := by
          simp [exactMatchStep, h, hjt]
        rw [hstep, ih]
        dsimp only
        rw [mem_setAdd]
        constructor
        · rintro (⟨hx | hx⟩ | ⟨hjt2, r2, hr2, hc2, hx2⟩)
          · exact Or.inl hx
          · exact Or.inr ⟨hjt, r, List.mem_cons_self r rest, h, hx⟩
          · exact Or.inr ⟨hjt2, r2, List.mem_cons_of_mem r hr2, hc2, hx2⟩
        · rintro (hx | ⟨hjt2, r2, hr2, hc2, hx2⟩)
          · exact Or.inl (Or.inl hx)
          · rcases List.mem_cons.mp hr2 with he | hm
            · exact Or.inl (Or.inr (by rw [hx2, he]))
            · exact Or.inr ⟨hjt2, r2, hm, hc2, hx2⟩
      · have hstep : exactMatchStep conds jt t l acc r
            = { matched := acc.matched,
                out := acc.out ++ [mergeRows (some l) (some r) t] } := by
          simp [exactMatchStep, h, hjt]
        rw [hstep, ih]
        dsimp only
        simp [hjt]
    · have hstep : exactMatchStep conds jt t l acc r = acc := by
        simp [exactMatchStep, h]
      rw [hstep, ih]
      constructor
      · rintro (hx | ⟨hjt2, r2, hr2, hc2, hx2⟩)
        · exact Or.inl hx
        · exact Or.inr ⟨hjt2, r2, List.mem_cons_of_mem r hr2, hc2, hx2⟩
      · rintro (hx | ⟨hjt2, r2, hr2, hc2, hx2⟩)
        · exact Or.inl hx
        · rcases List.mem_cons.mp hr2 with he | hm
          · exact absurd (he ▸ hc2) h
          · exact Or.inr ⟨hjt2, r2, hm, hc2, hx2⟩

theorem exactJoinStep_out (R : List Row) (conds : List JoinCondition) (jt : JoinType)
    (t : Option Transform) (acc : ExactAcc) (l : Row) :
    (exactJoinStep (buildLookupMap R conds) conds jt t acc l).out
      = acc.out ++ specLeftPart R conds jt t l := by
  simp only [exactJoinStep, specLeftPart, lookupGet_buildLookupMap, condBucket]
  by_cases h : (R.filter (fun r => rightKeyOf conds r == leftKeyOf conds l)).length > 0
  · simp [h, exactMatchFold_out]
  · by_cases hjt : (jt == JoinType.left || jt == JoinType.full) = true
    · simp [h, hjt]
    · simp [h, hjt]

theorem exactJoinStep_matched (R : List Row) (conds : List JoinCondition) (jt : JoinType)
    (t : Option Transform) (acc : ExactAcc) (l : Row) (x : Row) :
    x ∈ (exactJoinStep (buildLookupMap R conds) conds jt t acc l).matched
      ↔ x ∈ acc.matched ∨ ((jt == JoinType.right || jt == JoinType.full) = true ∧
          ∃ r ∈ condBucket R conds l,
            compareJoinConditions conds (some l) (some r) = true ∧ x = r) := by
  simp only [exactJoinStep, lookupGet_buildLookupMap]
  by_cases h : (R.filter (fun r => rightKeyOf conds r == leftKeyOf conds l)).length > 0
  · simp only [h, if_true]
    exact exactMatchFold_matched conds jt t l (condBucket R conds l) acc x
  · have hlen : (R.filter (fun r => rightKeyOf conds r == leftKeyOf conds l)).length = 0 :=
      Nat.eq_zero_of_not_pos h
    have hempty : condBucket R conds l = [] := by
      simpa [condBucket] using List.length_eq_zero.mp hlen
    by_cases hjt : (jt == JoinType.left || jt == JoinType.full) = true
    · simp [h, hjt, hempty]
    · simp [h, hjt, hempty]

theorem exactJoin_foldl_out (L R : List Row) (conds : List JoinCondition) (jt : JoinType)
    (t : Option Transform) :
    ∀ acc : ExactAcc,
      (L.foldl (exactJoinStep (buildLookupMap R conds) conds jt t) acc).out
        = acc.out ++ L.flatMap (specLeftPart R conds jt t) := by
  induction L with
  | nil => intro acc; simp
  | cons l rest ih =>
    intro acc
    simp [List.foldl_cons, ih, exactJoinStep_out]

theorem exactJoin_foldl_matched (L R : List Row) (conds : List JoinCondition) (jt : JoinType)
    (t : Option Transform) :
    ∀ (acc : ExactAcc) (x : Row),
      x ∈ (L.foldl (exactJoinStep (buildLookupMap R conds) conds jt t) acc).matched
        ↔ x ∈ acc.matched ∨ ((jt == JoinType.right || jt == JoinType.full) = true ∧
            ∃ l ∈ L, ∃ r ∈ condBucket R conds l,
              compareJoinConditions conds (some l) (some r) = true ∧ x = r) := by
  induction L with
  | nil => simp
  | cons l rest ih =>
    intro acc x
    rw [List.foldl_cons, ih, exactJoinStep_matched]
    constructor
    · rintro ((hx | ⟨hjt, r2, hr2, hc2, hx2⟩) | ⟨hjt, l2, hl2, r2, hr2, hc2, hx2⟩)
      · exact Or.inl hx
      · exact Or.inr ⟨hjt, l, List.mem_cons_self l rest, r2, hr2, hc2, hx2⟩
      · exact Or.inr ⟨hjt, l2, List.mem_cons_of_mem l hl2, r2, hr2, hc2, hx2⟩
    · rintro (hx | ⟨hjt, l2, hl2, r2, hr2, hc2, hx2⟩)
      · exact Or.inl (Or.inl hx)
      · rcases List.mem_cons.mp hl2 with he | hm
        · exact Or.inl (Or.inr ⟨hjt, r2, he ▸ hr2, he ▸ hc2, hx2⟩)
        · exact Or.inr ⟨hjt, l2, hm, r2, hr2, hc2, hx2⟩

theorem performExactJoin_eq_spec (L R : List Row) (conds : List JoinCondition)
    (jt : JoinType) (t : Option Transform) :
    performExactJoin L R conds jt t = specExactJoin L R conds jt t := by
  unfold performExactJoin specExactJoin specRightPart
  by_cases hjt : (jt == JoinType.right || jt == JoinType.full) = true
  · simp only [hjt, if_true]
    rw [exactJoin_foldl_out]
    simp only [List.nil_append]
    congr 1
    congr 1
    apply List.filter_congr
    intro r hr
    have hmem := exactJoin_foldl_matched L R conds jt t ⟨[], []⟩ r
    simp only [List.not_mem_nil, false_or] at hmem
    have hconmem : ((L.foldl (exactJoinStep (buildLookupMap R conds) conds jt t)
        ⟨[], []⟩).matched.contains r = true)
        ↔ r ∈ (L.foldl (exactJoinStep (buildLookupMap R conds) conds jt t)
            ⟨[], []⟩).matched := by
      simp
    have hany : (L.any (fun l => verifiedMatch conds l r) = true)
        ↔ ∃ l ∈ L, verifiedMatch conds l r = true := List.any_eq_true
    have hiff : ((L.foldl (exactJoinStep (buildLookupMap R conds) conds jt t)
        ⟨[], []⟩).matched.contains r) = (L.any (fun l => verifiedMatch conds l r)) := by
      rw [Bool.eq_iff_iff, hconmem, hmem, hany]
      constructor
      · rintro ⟨_, l, hl, r2, hr2, hc2, he⟩
        subst he
        rcases List.mem_filter.mp hr2 with ⟨_, hkey⟩
        refine ⟨l, hl, ?_⟩
        simp [verifiedMatch, hkey, hc2]
      · rintro ⟨l, hl, hv⟩
        have hv2 : (rightKeyOf conds r == leftKeyOf conds l) = true ∧
            compareJoinConditions conds (some l) (some r) = true := by
          simpa [verifiedMatch] using hv
        exact ⟨hjt, l, hl, r, List.mem_filter.mpr ⟨hr, hv2.1⟩, hv2.2, rfl⟩
    rw [hiff]
  · simp only [hjt, if_false]
    rw [exactJoin_foldl_out]
    simp

theorem specExactJoin_inner_sound (L R : List Row) (conds : List JoinCondition)
    (t : Option Transform) (v : JValue) :
    v ∈ specExactJoin L R conds JoinType.inner t →
    ∃ l ∈ L, ∃ r ∈ R, compareJoinConditions conds (some l) (some r) = true
        ∧ v = mergeRows (some l) (some r) t := by
  intro hv
  unfold specExactJoin specRightPart at hv
  rw [show ((JoinType.inner == JoinType.right || JoinType.inner == JoinType.full) = false)
      from rfl] at hv
  simp only [Bool.false_eq_true, if_false, List.append_nil] at hv
  rcases List.mem_flatMap.mp hv with ⟨l, hl, hvl⟩
  unfold specLeftPart at hvl
  by_cases h : (condBucket R conds l).length > 0
  · rw [if_pos h] at hvl
    rcases List.mem_map.mp hvl with ⟨r, hrf, hveq⟩
    rcases List.mem_filter.mp hrf with ⟨hrb, hcmp⟩
    rcases List.mem_filter.mp hrb with ⟨hrR, _⟩
    exact ⟨l, hl, r, hrR, hcmp, hveq.symm⟩
  · rw [if_neg h] at hvl
    simp at hvl

theorem multiKey_all_null (r : Row) (conds : List JoinCondition) (side : Side)
    (h : ∀ c ∈ conds, getNestedProperty r (c.keyFor side) = JValue.null
        ∨ getNestedProperty r (c.keyFor side) = JValue.undef) :
    createMultiConditionKey (some r) conds side
      = String.intercalate "::" (conds.map (fun _ => "NULL")) := by
  simp only [createMultiConditionKey]
  congr 1
  apply List.map_congr_left
  intro c hc
  rcases h c hc with hv | hv <;> simp [hv]

theorem compare_all_null (conds : List JoinCondition) (l r : Row)
    (hcomp : ∀ c ∈ conds, c.comparator = none)
    (h : ∀ c ∈ conds,
        (getNestedProperty l c.leftKey = JValue.null
          ∨ getNestedProperty l c.leftKey = JValue.undef)
      ∧ (getNestedProperty r c.rightKey = JValue.null
          ∨ getNestedProperty r c.rightKey = JValue.undef)) :
    compareJoinConditions conds (some l) (some r) = true := by
  simp only [compareJoinConditions, List.all_eq_true]
  intro c hc
  obtain ⟨hl, hr⟩ := h c hc
  unfold compareOneCondition
  rw [hcomp c hc]
  rcases hl with hl | hl <;> rcases hr with hr | hr <;> simp [hl, hr]

theorem mergeRows_mem_exactJoin_inner (L R : List Row) (conds : List JoinCondition)
    (t : Option Transform) (l r : Row) (hl : l ∈ L) (hr : r ∈ R)
    (hkey : rightKeyOf conds r = leftKeyOf conds l)
    (hcmp : compareJoinConditions conds (some l) (some r) = true) :
    mergeRows (some l) (some r) t ∈ performExactJoin L R conds JoinType.inner t := by
  rw [performExactJoin_eq_spec]
  unfold specExactJoin
  apply List.mem_append_left
  apply List.mem_flatMap.mpr
  refine ⟨l, hl, ?_⟩
  have hrb : r ∈ condBucket R conds l :=
    List.mem_filter.mpr ⟨hr, by simp [hkey]⟩
  unfold specLeftPart
  rw [if_pos (List.length_pos_of_mem hrb)]
  exact List.mem_map.mpr ⟨r, List.mem_filter.mpr ⟨hrb, hcmp⟩, rfl⟩

/-- C1 (corrected).  Counterexample to the claim as stated: in a left join, a left
row whose composite key collides with a right row that then fails the
per-condition re-check produces no output row at all, even though it has no
matching counterpart under the documented equality rules, contradicting the
claimed once-with-null emission.  Concretely, left row a=1 (number) against
right row a="1" (string) share the composite key "1" but fail strict equality,
and the left join output is empty. -/
theorem exactJoin_claim_counterexample :
    performExactJoin [[("a", JValue.num 1)]] [[("a", JValue.str "1")]]
        [⟨"a", "a", none⟩] JoinType.left none = []
    ∧ compareJoinConditions [⟨"a", "a", none⟩]
        (some [("a", JValue.num 1)]) (some [("a", JValue.str "1")]) = false := by
  constructor
  · decide
  · decide

/-- C1 (amended): for every pair of row sets and every non-empty condition list,
each row output by the exact inner join arises from a (left,right) pair passing
the documented per-condition equality rules, merged by the row merge; and the
whole join, for every join type, equals the nested-loop reference join in which
a left-side row is emitted once with a null counterpart exactly when no right
row shares its composite key (not merely when the re-check fails), while a
right-side row is emitted once with a null counterpart exactly when no left row
verifies a match against it. -/
theorem exactJoin_correctness (L R : List Row) (conds : List JoinCondition)
    (t : Option Transform) (hne : conds ≠ []) :
    (∀ v ∈ performExactJoin L R conds JoinType.inner t,
        ∃ l ∈ L, ∃ r ∈ R, compareJoinConditions conds (some l) (some r) = true
          ∧ v = mergeRows (some l) (some r) t)
    ∧ (∀ jt, performExactJoin L R conds jt t = specExactJoin L R conds jt t) := by
  constructor
  · intro v hv
    rw [performExactJoin_eq_spec] at hv
    exact specExactJoin_inner_sound L R conds t v hv
  · intro jt
    exact performExactJoin_eq_spec L R conds jt t

/-- Spec scenario instance for the exact join: dept-on-dept inner join of two
left rows against one right row. -/
theorem exactJoin_correctness_witness :
    ([⟨"dept", "dept", none⟩] : List JoinCondition) ≠ [] ∧
    ((∀ v ∈ performExactJoin
          [[("id", JValue.num 1), ("dept", JValue.str "A")],
           [("id", JValue.num 2), ("dept", JValue.str "B")]]
          [[("dept", JValue.str "A"), ("manager", JValue.str "X")]]
          [⟨"dept", "dept", none⟩] JoinType.inner none,
        ∃ l ∈ [[("id", JValue.num 1), ("dept", JValue.str "A")],
               [("id", JValue.num 2), ("dept", JValue.str "B")]],
        ∃ r ∈ [[("dept", JValue.str "A"), ("manager", JValue.str "X")]],
          compareJoinConditions [⟨"dept", "dept", none⟩] (some l) (some r) = true
            ∧ v = mergeRows (some l) (some r) none)
    ∧ (∀ jt, performExactJoin
          [[("id", JValue.num 1), ("dept", JValue.str "A")],
           [("id", JValue.num 2), ("dept", JValue.str "B")]]
          [[("dept", JValue.str "A"), ("manager", JValue.str "X")]]
          [⟨"dept", "dept", none⟩] jt none
        = specExactJoin
          [[("id", JValue.num 1), ("dept", JValue.str "A")],
           [("id", JValue.num 2), ("dept", JValue.str "B")]]
          [[("dept", JValue.str "A"), ("manager", JValue.str "X")]]
          [⟨"dept", "dept", none⟩] jt none)) :=
  ⟨List.cons_ne_nil _ _,
   exactJoin_correctness _ _ _ none (List.cons_ne_nil _ _)⟩

/-- C10: at the join boundary, JSON null and a missing field are
indistinguishable: whenever every condition resolves to null or undefined on
both rows (with no custom comparators), the two composite keys coincide on the
NULL sentinel, the re-check accepts the pair, and the pair is joined in an
inner join. -/
theorem exactJoin_null_missing_collapse (L R : List Row) (conds : List JoinCondition)
    (t : Option Transform) (l r : Row) (hl : l ∈ L) (hr : r ∈ R)
    (hcomp : ∀ c ∈ conds, c.comparator = none)
    (hnull : ∀ c ∈ conds,
        (getNestedProperty l c.leftKey = JValue.null
          ∨ getNestedProperty l c.leftKey = JValue.undef)
      ∧ (getNestedProperty r c.rightKey = JValue.null
          ∨ getNestedProperty r c.rightKey = JValue.undef)) :
    leftKeyOf conds l = rightKeyOf conds r
    ∧ compareJoinConditions conds (some l) (some r) = true
    ∧ mergeRows (some l) (some r) t ∈ performExactJoin L R conds JoinType.inner t := by
  have hleft : leftKeyOf conds l
      = String.intercalate "::" (conds.map (fun _ => "NULL")) := by
    unfold leftKeyOf
    exact multiKey_all_null l conds .left (fun c hc => (hnull c hc).1)
  have hright : rightKeyOf conds r
      = String.intercalate "::" (conds.map (fun _ => "NULL")) := by
    unfold rightKeyOf
    exact multiKey_all_null r conds .right (fun c hc => (hnull c hc).2)
  have hcmp := compare_all_null conds l r hcomp hnull
  exact ⟨hleft.trans hright.symm, hcmp,
    mergeRows_mem_exactJoin_inner L R conds t l r hl hr (hright.trans hleft.symm) hcmp⟩

/-- Concrete instance of the null/missing collapse: a left row holding an
explicit null joins a right row missing the field entirely. -/
theorem exactJoin_null_missing_collapse_witness :
    ((∀ c ∈ ([⟨"a", "a", none⟩] : List JoinCondition), c.comparator = none)
    ∧ leftKeyOf [⟨"a", "a", none⟩] [("a", JValue.null)]
        = rightKeyOf [⟨"a", "a", none⟩] []
    ∧ compareJoinConditions [⟨"a", "a", none⟩]
        (some [("a", JValue.null)]) (some []) = true
    ∧ mergeRows (some [("a", JValue.null)]) (some []) none
        ∈ performExactJoin [[("a", JValue.null)]] [([] : Row)]
            [⟨"a", "a", none⟩] JoinType.inner none) := by
  have hcomp : ∀ c ∈ ([⟨"a", "a", none⟩] : List JoinCondition), c.comparator = none := by
    intro c hc
    simp only [List.mem_singleton] at hc
    subst hc
    rfl
  have hnull : ∀ c ∈ ([⟨"a", "a", none⟩] : List JoinCondition),
      (getNestedProperty [("a", JValue.null)] c.leftKey = JValue.null
        ∨ getNestedProperty [("a", JValue.null)] c.leftKey = JValue.undef)
      ∧ (getNestedProperty ([] : Row) c.rightKey = JValue.null
        ∨ getNestedProperty ([] : Row) c.rightKey = JValue.undef) := by
    intro c hc
    simp only [List.mem_singleton] at hc
    subst hc
    exact ⟨by decide, by decide⟩
  have h := exactJoin_null_missing_collapse [[("a", JValue.null)]] [([] : Row)]
    [⟨"a", "a", none⟩] none [("a", JValue.null)] []
    (List.mem_singleton.mpr rfl) (List.mem_singleton.mpr rfl) hcomp hnull
  exact ⟨hcomp, h.1, h.2.1, h.2.2⟩

/-- Strategy shape consumed by the strategy loop of joinQueries once fuzzy
matching is disabled: a name, the AND-combined conditions, the resolved join
type and the optional transform. -/
structure ExactStrategy where
  name : String
  conditions : List JoinCondition
  jtype : JoinType
  transform : Option Transform

/-- Run of one non-fuzzy strategy by _performJoin, which dispatches to the exact
join when fuzzy matching is not enabled. -/
def runExactStrategy (data1 data2 : List Row) (s : ExactStrategy) : List JValue :=
  performExactJoin data1 data2 s.conditions s.jtype s.transform

/-- Best-join update of the strategy loop: a strategy replaces the current best
exactly when its joined row count strictly exceeds the best count so far. -/
def bestStep {α : Type} (name : α → String) (cnt : α → Nat)
    (best : Option String × Int) (x : α) : Option String × Int :=
  if (cnt x : Int) > best.2 then (some (name x), (cnt x : Int)) else best

/-- Translation of the best-join bookkeeping of the strategy loop, starting from
no best strategy and a best count of minus one. -/
def bestJoinFold {α : Type} (name : α → String) (cnt : α → Nat) (xs : List α) :
    Option String × Int :=
  xs.foldl (bestStep name cnt) (none, -1)

/-- Best join reported by joinQueries over a list of non-fuzzy strategies run
against the same two row sets. -/
def joinQueriesBest (data1 data2 : List Row) (strategies : List ExactStrategy) :
    Option String × Int :=
  bestJoinFold ExactStrategy.name
    (fun s => (runExactStrategy data1 data2 s).length) strategies

theorem bestJoinFold_spec {α : Type} (name : α → String) (cnt : α → Nat) :
    ∀ (xs : List α) (bn : Option String) (bc : Int),
      ((∀ x ∈ xs, (cnt x : Int) ≤ bc) ∧ xs.foldl (bestStep name cnt) (bn, bc) = (bn, bc))
      ∨ (∃ pre y suf, xs = pre ++ y :: suf
          ∧ (cnt y : Int) > bc
          ∧ (∀ x ∈ pre, (cnt x : Int) < (cnt y : Int))
          ∧ (∀ x ∈ suf, (cnt x : Int) ≤ (cnt y : Int))
          ∧ xs.foldl (bestStep name cnt) (bn, bc) = (some (name y), (cnt y : Int))) := by
  intro xs
  induction xs with
  | nil =>
    intro bn bc
    exact Or.inl ⟨by simp, by simp⟩
  | cons x rest ih =>
    intro bn bc
    have hstep : ∀ b : Option String × Int,
        List.foldl (bestStep name cnt) b (x :: rest)
          = List.foldl (bestStep name cnt) (bestStep name cnt b x) rest := by
      intro b; simp [List.foldl_cons]
    by_cases h : (cnt x : Int) > bc
    · have hx : bestStep name cnt (bn, bc) x = (some (name x), (cnt x : Int)) := by
        simp [bestStep, h]
      rcases ih (some (name x)) (cnt x) with ⟨hall, hfold⟩ |
          ⟨pre, y, suf, heq, hgt, hpre, hsuf, hfold⟩
      · refine Or.inr ⟨[], x, rest, by simp, h, by simp, hall, ?_⟩
        rw [hstep, hx, hfold]
      · refine Or.inr ⟨x :: pre, y, suf, by simp [heq], lt_trans h hgt, ?_, hsuf, ?_⟩
        · intro z hz
          rcases List.mem_cons.mp hz with he | hm
          · exact he ▸ hgt
          · exact hpre z hm
        · rw [hstep, hx, hfold]
    · have hx : bestStep name cnt (bn, bc) x = (bn, bc) := by
        simp [bestStep, h]
      have hle : (cnt x : Int) ≤ bc := le_of_not_lt h
      rcases ih bn bc with ⟨hall, hfold⟩ | ⟨pre, y, suf, heq, hgt, hpre, hsuf, hfold⟩
      · refine Or.inl ⟨?_, ?_⟩
        · intro z hz
          rcases List.mem_cons.mp hz with he | hm
          · exact he ▸ hle
          · exact hall z hm
        · rw [hstep, hx, hfold]
      · refine Or.inr ⟨x :: pre, y, suf, by simp [heq], hgt, ?_, hsuf, ?_⟩
        · intro z hz
          rcases List.mem_cons.mp hz with he | hm
          · exact he ▸ (lt_of_le_of_lt hle hgt)
          · exact hpre z hm
        · rw [hstep, hx, hfold]

/-- C3: over any non-empty strategy list, the best join reported by the strategy
loop belongs to the first strategy (in strategy order) whose joined row count
attains the maximum over all strategies: every earlier strategy joins strictly
fewer rows and no strategy joins more; in particular the selection fold over
per-strategy counts 3, 7, 7, 2 picks the strategy at index one. -/
theorem joinQueries_bestJoin_first_max (data1 data2 : List Row)
    (strategies : List ExactStrategy) (h : strategies ≠ []) :
    (∃ pre s suf, strategies = pre ++ s :: suf
      ∧ joinQueriesBest data1 data2 strategies
          = (some s.name, ((runExactStrategy data1 data2 s).length : Int))
      ∧ (∀ s2 ∈ pre, (runExactStrategy data1 data2 s2).length
            < (runExactStrategy data1 data2 s).length)
      ∧ (∀ s2 ∈ strategies, (runExactStrategy data1 data2 s2).length
            ≤ (runExactStrategy data1 data2 s).length))
    ∧ bestJoinFold Prod.fst Prod.snd
        [("strategy1", 3), ("strategy2", 7), ("strategy3", 7), ("strategy4", 2)]
        = (some "strategy2", 7) := by
  constructor
  · rcases bestJoinFold_spec ExactStrategy.name
        (fun s => (runExactStrategy data1 data2 s).length) strategies none (-1) with
      ⟨hall, _⟩ | ⟨pre, y, suf, heq, _, hpre, hsuf, hfold⟩
    · rcases List.exists_mem_of_ne_nil strategies h with ⟨x, hx⟩
      have := hall x hx
      omega
    · refine ⟨pre, y, suf, heq, hfold, ?_, ?_⟩
      · intro s2 hs2
        exact_mod_cast hpre s2 hs2
      · intro s2 hs2
        rw [heq] at hs2
        rcases List.mem_append.mp hs2 with hm | hm
        · exact le_of_lt (by exact_mod_cast hpre s2 hm)
        · rcases List.mem_cons.mp hm with he | hm2
          · exact he ▸ le_rfl
          · exact_mod_cast hsuf s2 hm2
  · decide

/-- Concrete run of the best-join selection: four strategies over a seven-row
left set and a one-row right set joining 3, 7, 7 and 2 rows, where the second
strategy is reported best. -/
theorem joinQueries_bestJoin_first_max_witness :
    ([⟨"s1", [⟨"flag", "b", none⟩], JoinType.inner, none⟩,
      ⟨"s2", [⟨"nope", "nope", none⟩], JoinType.inner, none⟩,
      ⟨"s3", [⟨"miss", "miss", none⟩], JoinType.inner, none⟩,
      ⟨"s4", [⟨"idx", "b", none⟩], JoinType.inner, none⟩] : List ExactStrategy) ≠ []
    ∧ ((∃ pre s suf,
        ([⟨"s1", [⟨"flag", "b", none⟩], JoinType.inner, none⟩,
          ⟨"s2", [⟨"nope", "nope", none⟩], JoinType.inner, none⟩,
          ⟨"s3", [⟨"miss", "miss", none⟩], JoinType.inner, none⟩,
          ⟨"s4", [⟨"idx", "b", none⟩], JoinType.inner, none⟩] : List ExactStrategy)
          = pre ++ s :: suf
        ∧ joinQueriesBest
            [[("idx", JValue.num 1), ("flag", JValue.num 1)],
             [("idx", JValue.num 1), ("flag", JValue.num 1)],
             [("idx", JValue.num 2), ("flag", JValue.num 1)],
             [("idx", JValue.num 3), ("flag", JValue.num 0)],
             [("idx", JValue.num 4), ("flag", JValue.num 0)],
             [("idx", JValue.num 5), ("flag", JValue.num 0)],
             [("idx", JValue.num 6), ("flag", JValue.num 0)]]
            [[("b", JValue.num 1)]]
            [⟨"s1", [⟨"flag", "b", none⟩], JoinType.inner, none⟩,
             ⟨"s2", [⟨"nope", "nope", none⟩], JoinType.inner, none⟩,
             ⟨"s3", [⟨"miss", "miss", none⟩], JoinType.inner, none⟩,
             ⟨"s4", [⟨"idx", "b", none⟩], JoinType.inner, none⟩]
            = (some s.name,
               ((runExactStrategy
                  [[("idx", JValue.num 1), ("flag", JValue.num 1)],
                   [("idx", JValue.num 1), ("flag", JValue.num 1)],
                   [("idx", JValue.num 2), ("flag", JValue.num 1)],
                   [("idx", JValue.num 3), ("flag", JValue.num 0)],
                   [("idx", JValue.num 4), ("flag", JValue.num 0)],
                   [("idx", JValue.num 5), ("flag", JValue.num 0)],
                   [("idx", JValue.num 6), ("flag", JValue.num 0)]]
                  [[("b", JValue.num 1)]] s).length : Int))
        ∧ (∀ s2 ∈ pre, (runExactStrategy
              [[("idx", JValue.num 1), ("flag", JValue.num 1)],
               [("idx", JValue.num 1), ("flag", JValue.num 1)],
               [("idx", JValue.num 2), ("flag", JValue.num 1)],
               [("idx", JValue.num 3), ("flag", JValue.num 0)],
               [("idx", JValue.num 4), ("flag", JValue.num 0)],
               [("idx", JValue.num 5), ("flag", JValue.num 0)],
               [("idx", JValue.num 6), ("flag", JValue.num 0)]]
              [[("b", JValue.num 1)]] s2).length
            < (runExactStrategy
              [[("idx", JValue.num 1), ("flag", JValue.num 1)],
               [("idx", JValue.num 1), ("flag", JValue.num 1)],
               [("idx", JValue.num 2), ("flag", JValue.num 1)],
               [("idx", JValue.num 3), ("flag", JValue.num 0)],
               [("idx", JValue.num 4), ("flag", JValue.num 0)],
               [("idx", JValue.num 5), ("flag", JValue.num 0)],
               [("idx", JValue.num 6), ("flag", JValue.num 0)]]
              [[("b", JValue.num 1)]] s).length)
        ∧ (∀ s2 ∈ ([⟨"s1", [⟨"flag", "b", none⟩], JoinType.inner, none⟩,
             ⟨"s2", [⟨"nope", "nope", none⟩], JoinType.inner, none⟩,
             ⟨"s3", [⟨"miss", "miss", none⟩], JoinType.inner, none⟩,
             ⟨"s4", [⟨"idx", "b", none⟩], JoinType.inner, none⟩] : List ExactStrategy),
            (runExactStrategy
              [[("idx", JValue.num 1), ("flag", JValue.num 1)],
               [("idx", JValue.num 1), ("flag", JValue.num 1)],
               [("idx", JValue.num 2), ("flag", JValue.num 1)],
               [("idx", JValue.num 3), ("flag", JValue.num 0)],
               [("idx", JValue.num 4), ("flag", JValue.num 0)],
               [("idx", JValue.num 5), ("flag", JValue.num 0)],
               [("idx", JValue.num 6), ("flag", JValue.num 0)]]
              [[("b", JValue.num 1)]] s2).length
            ≤ (runExactStrategy
              [[("idx", JValue.num 1), ("flag", JValue.num 1)],
               [("idx", JValue.num 1), ("flag", JValue.num 1)],
               [("idx", JValue.num 2), ("flag", JValue.num 1)],
               [("idx", JValue.num 3), ("flag", JValue.num 0)],
               [("idx", JValue.num 4), ("flag", JValue.num 0)],
               [("idx", JValue.num 5), ("flag", JValue.num 0)],
               [("idx", JValue.num 6), ("flag", JValue.num 0)]]
              [[("b", JValue.num 1)]] s).length))
      ∧ bestJoinFold Prod.fst Prod.snd
          [("strategy1", 3), ("strategy2", 7), ("strategy3", 7), ("strategy4", 2)]
          = (some "strategy2", 7)) :=
  ⟨List.cons_ne_nil _ _,
   joinQueries_bestJoin_first_max _ _ _ (List.cons_ne_nil _ _)⟩

/-- Right-fold of all fields of the right row into an accumulator row, the field
loop of the row merge. -/
def mergeFold (base : Row) (rr : Row) : Row :=
  rr.foldl (fun acc p => mergeField acc p.1 p.2) base

/-- C9: the row merge starts from a shallow copy of the left row (the empty
object when left is null, and the copy itself when right is null) and folds
every right field through the documented per-field cases: underscore-prefixed
fields are skipped; an absent field is added; a field present with a strictly
equal value is skipped; conflicting arrays are concatenated; conflicting
non-null typeof-object values are shallow-merged one level; any other conflict
keeps the left value and stores the right value under a right-prefixed key; for
every argument shape, a throwing transform leaves the untransformed merge, and
a transform return value replaces the merge exactly when truthy. -/
theorem mergeRows_spec (l rr acc : Row) (k : String) (v : JValue) :
    (mergeRows (some l) (some rr) none = JValue.obj (mergeFold l rr))
    ∧ (mergeRows none (some rr) none = JValue.obj (mergeFold [] rr))
    ∧ (mergeRows (some l) none none = JValue.obj l)
    ∧ (mergeRows none none none = JValue.obj ([] : Row))
    ∧ (∀ (lo ro : Option Row), mergeRows lo ro none
        = JValue.obj (mergeFold (lo.getD []) (ro.getD [])))
    ∧ (k.startsWith "_" = true → mergeField acc k v = acc)
    ∧ (k.startsWith "_" = false → acc.hasKey k = false →
        mergeField acc k v = acc.setProp k v)
    ∧ (k.startsWith "_" = false → acc.hasKey k = true →
        strictEq (acc.getProp k) v = true → mergeField acc k v = acc)
    ∧ (k.startsWith "_" = false → acc.hasKey k = true →
        strictEq (acc.getProp k) v = false →
        ((acc.getProp k).isArr && v.isArr) = true →
        mergeField acc k v
          = acc.setProp k (.arr ((acc.getProp k).arrElems ++ v.arrElems)))
    ∧ (k.startsWith "_" = false → acc.hasKey k = true →
        strictEq (acc.getProp k) v = false →
        ((acc.getProp k).isArr && v.isArr) = false →
        ((acc.getProp k).isTypeofObject && v.isTypeofObject
          && !(acc.getProp k == JValue.null) && !(v == JValue.null)) = true →
        mergeField acc k v = acc.setProp k (.obj (jsSpreadMerge (acc.getProp k) v)))
    ∧ (k.startsWith "_" = false → acc.hasKey k = true →
        strictEq (acc.getProp k) v = false →
        ((acc.getProp k).isArr && v.isArr) = false →
        ((acc.getProp k).isTypeofObject && v.isTypeofObject
          && !(acc.getProp k == JValue.null) && !(v == JValue.null)) = false →
        mergeField acc k v = acc.setProp ("right_" ++ k) v)
    ∧ (∀ f : Transform, f (mergeFold l rr) (some l) (some rr) = .thrown →
        mergeRows (some l) (some rr) (some f) = JValue.obj (mergeFold l rr))
    ∧ (∀ (f : Transform) (w : JValue), f (mergeFold l rr) (some l) (some rr) = .value w →
        w.truthy = true → mergeRows (some l) (some rr) (some f) = w)
    ∧ (∀ (f : Transform) (w : JValue), f (mergeFold l rr) (some l) (some rr) = .value w →
        w.truthy = false →
        mergeRows (some l) (some rr) (some f) = JValue.obj (mergeFold l rr))
    ∧ (∀ (lo ro : Option Row) (f : Transform),
        f (mergeFold (lo.getD []) (ro.getD [])) lo ro = .thrown →
        mergeRows lo ro (some f) = JValue.obj (mergeFold (lo.getD []) (ro.getD [])))
    ∧ (∀ (lo ro : Option Row) (f : Transform) (w : JValue),
        f (mergeFold (lo.getD []) (ro.getD [])) lo ro = .value w →
        mergeRows lo ro (some f)
          = (if w.truthy then w
             else JValue.obj (mergeFold (lo.getD []) (ro.getD [])))) := by
  refine ⟨rfl, rfl, rfl, rfl, ?_, ?_, ?_, ?_, ?_, ?_, ?_, ?_, ?_, ?_, ?_, ?_⟩
  · intro lo ro
    cases lo <;> cases ro <;> rfl
  · intro h1
    simp [mergeField, h1]
  · intro h1 h2
    simp [mergeField, h1, h2]
  · intro h1 h2 h3
    simp [mergeField, h1, h2, h3]
  · intro h1 h2 h3 h4
    rcases Bool.and_eq_true_iff.mp h4 with ⟨ha, hb⟩
    simp [mergeField, h1, h2, h3, ha, hb]
  · intro h1 h2 h3 h4 h5
    simp [mergeField, h1, h2, h3, h4, h5]
  · intro h1 h2 h3 h4 h5
    simp [mergeField, h1, h2, h3, h4, h5]
  · intro f hf
    simp [mergeRows, mergeFold] at hf ⊢
    rw [hf]
  · intro f w hf hw
    simp [mergeRows, mergeFold] at hf ⊢
    rw [hf]
    simp [hw]
  · intro f w hf hw
    simp [mergeRows, mergeFold] at hf ⊢
    rw [hf]
    simp [hw]
  · intro lo ro f hf
    cases lo <;> cases ro <;>
      (simp [mergeRows, mergeFold] at hf ⊢
       rw [hf])
  · intro lo ro f w hf
    cases lo <;> cases ro <;>
      (simp [mergeRows, mergeFold] at hf ⊢
       rw [hf])

/-- Code-unit comparison of two character lists, the lexicographic order used by
the default JavaScript string sort. -/
def charListLe : List Char → List Char → Bool
  | [], _ => true
  | _ :: _, [] => false
  | c :: cs, d :: ds =>
    if c.toNat < d.toNat then true
    else if d.toNat < c.toNat then false
    else charListLe cs ds

/-- Boolean string comparison of the default JavaScript Array sort comparator. -/
def strLeb (a b : String) : Bool :=
  charListLe a.toList b.toList

/-- Insertion of a string into a sorted list, one step of the sorted
rearrangement produced by the default JavaScript sort. -/
def insertSorted (x : String) : List String → List String
  | [] => [x]
  | y :: ys => if strLeb x y then x :: y :: ys else y :: insertSorted x ys

/-- Model of Array.prototype.sort() on string keys: the rearrangement sorted by
the code-unit order (key lists sorted here are duplicate-free, for which every
correct sort produces this same list). -/
def jsSortStrings (ks : List String) : List String :=
  ks.foldr insertSorted []

theorem charListLe_total : ∀ (a b : List Char), charListLe a b = true ∨ charListLe b a = true
  | [], _ => Or.inl rfl
  | _ :: _, [] => Or.inr rfl
  | c :: cs, d :: ds => by
    rcases Nat.lt_trichotomy c.toNat d.toNat with h | h | h
    · left
      rw [charListLe, if_pos (by omega)]
    · rcases charListLe_total cs ds with h2 | h2
      · left
        rw [charListLe, if_neg (by omega), if_neg (by omega)]
        exact h2
      · right
        rw [charListLe, if_neg (by omega), if_neg (by omega)]
        exact h2
    · right
      rw [charListLe, if_pos (by omega)]

theorem charListLe_antisymm : ∀ (a b : List Char),
    charListLe a b = true → charListLe b a = true → a = b
  | [], [], _, _ => rfl
  | [], _ :: _, _, h2 => absurd h2 (by simp [charListLe])
  | _ :: _, [], h1, _ => absurd h1 (by simp [charListLe])
  | c :: cs, d :: ds, h1, h2 => by
    rw [charListLe] at h1 h2
    rcases Nat.lt_trichotomy c.toNat d.toNat with h | h | h
    · rw [if_neg (by omega), if_pos (by omega)] at h2
      exact absurd h2 (by simp)
    · rw [if_neg (by omega), if_neg (by omega)] at h1 h2
      have hcd : c = d := Char.ext (UInt32.ext h)
      rw [hcd, charListLe_antisymm cs ds h1 h2]
    · rw [if_neg (by omega), if_pos (by omega)] at h1
      exact absurd h1 (by simp)

theorem charListLe_trans : ∀ (a b c : List Char),
    charListLe a b = true → charListLe b c = true → charListLe a c = true
  | [], _, _, _, _ => rfl
  | _ :: _, [], _, h1, _ => absurd h1 (by simp [charListLe])
  | _ :: _, _ :: _, [], _, h2 => absurd h2 (by simp [charListLe])
  | x :: xs, y :: ys, z :: zs, h1, h2 => by
    rw [charListLe] at h1 h2 ⊢
    rcases Nat.lt_trichotomy x.toNat y.toNat with hxy | hxy | hxy
    · rcases Nat.lt_trichotomy y.toNat z.toNat with hyz | hyz | hyz
      · rw [if_pos (by omega)]
      · rw [if_pos (by omega)]
      · rw [if_neg (by omega), if_pos (by omega)] at h2
        exact absurd h2 (by simp)
    · rw [if_neg (by omega), if_neg (by omega)] at h1
      rcases Nat.lt_trichotomy y.toNat z.toNat with hyz | hyz | hyz
      · rw [if_pos (by omega)]
      · rw [if_neg (by omega), if_neg (by omega)] at h2 ⊢
        exact charListLe_trans xs ys zs h1 h2
      · rw [if_neg (by omega), if_pos (by omega)] at h2
        exact absurd h2 (by simp)
    · rw [if_neg (by omega), if_pos (by omega)] at h1
      exact absurd h1 (by simp)

theorem strLeb_total (a b : String) : strLeb a b = true ∨ strLeb b a = true :=
  charListLe_total a.toList b.toList

theorem strLeb_antisymm (a b : String) (h1 : strLeb a b = true) (h2 : strLeb b a = true) :
    a = b := by
  have hl := charListLe_antisymm a.toList b.toList h1 h2
  cases a with
  | mk da =>
    cases b with
    | mk db =>
      simp only [String.toList] at hl
      rw [hl]

theorem strLeb_trans (a b c : String) (h1 : strLeb a b = true) (h2 : strLeb b c = true) :
    strLeb a c = true :=
  charListLe_trans a.toList b.toList c.toList h1 h2

theorem insertSorted_perm (x : String) (l : List String) :
    (insertSorted x l).Perm (x :: l) := by
  induction l with
  | nil => exact List.Perm.refl _
  | cons y ys ih =>
    by_cases h : strLeb x y = true
    · simp [insertSorted, h]
    · have hstep : insertSorted x (y :: ys) = y :: insertSorted x ys := by
        simp [insertSorted, h]
      rw [hstep]
      exact (ih.cons y).trans (List.Perm.swap x y ys)

theorem jsSortStrings_perm (l : List String) : (jsSortStrings l).Perm l := by
  induction l with
  | nil => exact List.Perm.refl _
  | cons x xs ih =>
    have hstep : jsSortStrings (x :: xs) = insertSorted x (jsSortStrings xs) := rfl
    rw [hstep]
    exact (insertSorted_perm x (jsSortStrings xs)).trans (ih.cons x)

theorem mem_insertSorted (x z : String) (l : List String) :
    z ∈ insertSorted x l ↔ z = x ∨ z ∈ l := by
  rw [(insertSorted_perm x l).mem_iff]
  simp

theorem insertSorted_sorted (x : String) (l : List String)
    (h : l.Pairwise (fun a b => strLeb a b = true)) :
    (insertSorted x l).Pairwise (fun a b => strLeb a b = true) := by
  induction l with
  | nil => simp [insertSorted]
  | cons y ys ih =>
    rcases List.pairwise_cons.mp h with ⟨hy, hys⟩
    by_cases hxy : strLeb x y = true
    · have hstep : insertSorted x (y :: ys) = x :: y :: ys := by
        simp [insertSorted, hxy]
      rw [hstep]
      refine List.pairwise_cons.mpr ⟨?_, h⟩
      intro z hz
      rcases List.mem_cons.mp hz with he | hm
      · exact he ▸ hxy
      · exact strLeb_trans x y z hxy (hy z hm)
    · have hstep : insertSorted x (y :: ys) = y :: insertSorted x ys := by
        simp [insertSorted, hxy]
      rw [hstep]
      refine List.pairwise_cons.mpr ⟨?_, ih hys⟩
      intro z hz
      rcases (mem_insertSorted x z ys).mp hz with he | hm
      · subst he
        rcases strLeb_total z y with h2 | h2
        · exact absurd h2 hxy
        · exact h2
      · exact hy z hm

theorem jsSortStrings_sorted (l : List String) :
    (jsSortStrings l).Pairwise (fun a b => strLeb a b = true) := by
  induction l with
  | nil => simp [jsSortStrings]
  | cons x xs ih => exact insertSorted_sorted x (jsSortStrings xs) ih

instance : IsAntisymm String (fun a b => strLeb a b = true) :=
  ⟨fun a b h1 h2 => strLeb_antisymm a b h1 h2⟩

theorem jsSortStrings_eq_of_perm (l1 l2 : List String) (h : l1.Perm l2) :
    jsSortStrings l1 = jsSortStrings l2 :=
  @List.eq_of_perm_of_sorted String (fun a b => strLeb a b = true) _ _ _
    (((jsSortStrings_perm l1).trans h).trans (jsSortStrings_perm l2).symm)
    (jsSortStrings_sorted l1) (jsSortStrings_sorted l2)

/-- Hexadecimal digit character for low control-character escapes. -/
def hexDigitChar (n : Nat) : Char :=
  if n < 10 then Char.ofNat (48 + n) else Char.ofNat (87 + n)

/-- Escape of one character inside a JSON string literal, as JSON.stringify
produces it. -/
def jsonEscapeChar (c : Char) : List Char :=
  if c = Char.ofNat 34 then [Char.ofNat 92, Char.ofNat 34]
  else if c = Char.ofNat 92 then [Char.ofNat 92, Char.ofNat 92]
  else if c = Char.ofNat 10 then [Char.ofNat 92, Char.ofNat 110]
  else if c = Char.ofNat 13 then [Char.ofNat 92, Char.ofNat 114]
  else if c = Char.ofNat 9 then [Char.ofNat 92, Char.ofNat 116]
  else if c = Char.ofNat 8 then [Char.ofNat 92, Char.ofNat 98]
  else if c = Char.ofNat 12 then [Char.ofNat 92, Char.ofNat 102]
  else if c.toNat < 32 then
    [Char.ofNat 92, Char.ofNat 117, Char.ofNat 48, Char.ofNat 48,
     hexDigitChar (c.toNat / 16), hexDigitChar (c.toNat % 16)]
  else [c]

/-- Quoted JSON string literal. -/
def jsonQuote (s : String) : String :=
  String.mk (Char.ofNat 34 :: (s.toList.flatMap jsonEscapeChar ++ [Char.ofNat 34]))

/-- Selection and rendering of the object members of a JSON serialization driven
by a replacer array: keys are emitted in replacer order, keys that are absent or
hold an unserializable (undefined) value are skipped. -/
def selectProps (props : List String) (serialized : List (String × Option String)) :
    List String :=
  props.filterMap (fun k =>
    match serialized.find? (fun p => p.1 == k) with
    | some (_, some sv) => some (jsonQuote k ++ ":" ++ sv)
    | _ => none)

-- Model of JSON.stringify(value, replacerArray): undefined serializes to nothing
-- (none), arrays render every element (unserializable elements as null), and
-- objects render exactly the replacer-listed keys, in replacer order, at every
-- nesting level, as ECMA-262 prescribes for an array replacer.  Dates reach this
-- point as their toJSON string (abstracted by the injective placeholder
-- rendering).
mutual
def jsonStringifyWith (props : List String) : JValue → Option String
  | .null => some "null"
  | .undef => none
  | .bool b => some (if b then "true" else "false")
  | .num q => some (ratToJsString q)
  | .str s => some (jsonQuote s)
  | .date ms => some (jsonQuote (dateToJsString ms))
  | .arr es => some ("[" ++ String.intercalate "," (jsonArrEltsWith props es) ++ "]")
  | .obj fs =>
    some ("\x7b" ++ String.intercalate "," (selectProps props (jsonFieldsWith props fs))
      ++ "\x7d")
def jsonArrEltsWith (props : List String) : List JValue → List String
  | [] => []
  | v :: rest =>
    (match jsonStringifyWith props v with
     | some sv => sv
     | none => "null") :: jsonArrEltsWith props rest
def jsonFieldsWith (props : List String) : List (String × JValue) → List (String × Option String)
  | [] => []
  | (k, v) :: rest => (k, jsonStringifyWith props v) :: jsonFieldsWith props rest
end

/-- Canonical serialization used by the row signature: JSON.stringify of the
value with the sorted list of its own keys as replacer. -/
def canonicalJson (v : JValue) : String :=
  match jsonStringifyWith (jsSortStrings (ownKeys v)) v with
  | some s => s
  | none => "undefined"

/-- Tracking configuration of the result-tracking engine. -/
structure TrackingOptions where
  markingStrategy : String
  hashFields : Option (List String)
  compositeFields : Option (List String)
  customComparator : Option (Row → TransformOutcome)

/-- Collection of the named fields a row actually has, in field-list order, as
the hash and composite strategies build their dataToHash object. -/
def pickFields (row : Row) (fields : List String) : Row :=
  fields.foldl
    (fun acc f => if Row.hasKey row f then Row.setProp acc f (Row.getProp row f) else acc) []

/-- Copy of a row without its underscore-prefixed internal fields, as the hash
strategy builds its dataToHash object when no field whitelist is given. -/
def stripInternalFields (row : Row) : Row :=
  row.foldl (fun acc p => if p.1.startsWith "_" then acc else Row.setProp acc p.1 p.2) []

/-- Translation of the strategy switch of generateRowSignature choosing the value
to hash: hash (whitelist or all non-internal fields), composite (fixed field
list with id, name, email as default), custom (comparator result, the raw row on
exception or when no comparator is given), and the raw row by default. -/
def dataToHashOf (row : Row) (opts : TrackingOptions) : JValue :=
  if opts.markingStrategy == "hash" then
    match opts.hashFields with
    | some fields => .obj (pickFields row fields)
    | none => .obj (stripInternalFields row)
  else if opts.markingStrategy == "composite" then
    .obj (pickFields row (opts.compositeFields.getD ["id", "name", "email"]))
  else if opts.markingStrategy == "custom" then
    match opts.customComparator with
    | some f =>
      (match f row with
       | .value v => v
       | .thrown => .obj row)
    | none => .obj row
  else .obj row

/-- Translation of generateRowSignature: the strategy-selected value serialized
with its sorted key list as replacer, then hashed.  The cryptographic hash
(sha256 hex digest) is an external primitive, taken as a parameter. -/
def generateRowSignature (hash : String → String) (row : Row) (opts : TrackingOptions) :
    String :=
  hash (canonicalJson (dataToHashOf row opts))

theorem find?_key_perm {β : Type} (l1 l2 : List (String × β)) (hperm : l1.Perm l2)
    (hnd : (l1.map Prod.fst).Nodup) (k : String) :
    l1.find? (fun p => p.1 == k) = l2.find? (fun p => p.1 == k) := by
  cases h1 : l1.find? (fun p => p.1 == k) with
  | none =>
    cases h2 : l2.find? (fun p => p.1 == k) with
    | none => rfl
    | some y =>
      have hy := List.find?_some h2
      have hym := List.mem_of_find?_eq_some h2
      have hnone := List.find?_eq_none.mp h1 y (hperm.symm.subset hym)
      exact absurd hy hnone
  | some x =>
    have hx := List.find?_some h1
    have hxm := List.mem_of_find?_eq_some h1
    cases h2 : l2.find? (fun p => p.1 == k) with
    | none =>
      have hnone := List.find?_eq_none.mp h2 x (hperm.subset hxm)
      exact absurd hx hnone
    | some y =>
      have hy := List.find?_some h2
      have hym := List.mem_of_find?_eq_some h2
      have hym1 : y ∈ l1 := hperm.symm.subset hym
      have hkx : x.1 = k := by simpa using hx
      have hky : y.1 = k := by simpa using hy
      have hxy : x = y :=
        List.inj_on_of_nodup_map hnd hxm hym1 (by rw [hkx, hky])
      rw [hxy]

theorem rowGetProp_perm (r1 r2 : Row) (hperm : r1.Perm r2)
    (hnd : (r1.map Prod.fst).Nodup) (k : String) :
    Row.getProp r1 k = Row.getProp r2 k := by
  unfold Row.getProp
  rw [find?_key_perm r1 r2 hperm hnd k]

theorem rowHasKey_perm (r1 r2 : Row) (hperm : r1.Perm r2) (k : String) :
    Row.hasKey r1 k = Row.hasKey r2 k := by
  unfold Row.hasKey
  rw [Bool.eq_iff_iff]
  simp only [List.any_eq_true]
  exact ⟨fun ⟨p, hp, he⟩ => ⟨p, hperm.subset hp, he⟩,
         fun ⟨p, hp, he⟩ => ⟨p, hperm.symm.subset hp, he⟩⟩

theorem jsonFieldsWith_eq_map (props : List String) (fs : Row) :
    jsonFieldsWith props fs = fs.map (fun p => (p.1, jsonStringifyWith props p.2)) := by
  induction fs with
  | nil => rfl
  | cons p rest ih =>
    obtain ⟨k, v⟩ := p
    simp [jsonFieldsWith, ih]

theorem jsonStringifyWith_obj_perm (props : List String) (fs1 fs2 : Row)
    (hperm : fs1.Perm fs2) (hnd : (fs1.map Prod.fst).Nodup) :
    jsonStringifyWith props (.obj fs1) = jsonStringifyWith props (.obj fs2) := by
  have hmap : (jsonFieldsWith props fs1).Perm (jsonFieldsWith props fs2) := by
    rw [jsonFieldsWith_eq_map, jsonFieldsWith_eq_map]
    exact hperm.map _
  have hnd2 : ((jsonFieldsWith props fs1).map Prod.fst).Nodup := by
    rw [jsonFieldsWith_eq_map, List.map_map]
    have hcomp : (Prod.fst ∘ fun p : String × JValue =>
        (p.1, jsonStringifyWith props p.2)) = Prod.fst := by
      funext p
      rfl
    rw [hcomp]
    exact hnd
  have hsel : selectProps props (jsonFieldsWith props fs1)
      = selectProps props (jsonFieldsWith props fs2) := by
    unfold selectProps
    congr 1
    funext k
    rw [find?_key_perm _ _ hmap hnd2 k]
  simp only [jsonStringifyWith]
  rw [hsel]

theorem canonicalJson_obj_perm (fs1 fs2 : Row) (hperm : fs1.Perm fs2)
    (hnd : (fs1.map Prod.fst).Nodup) :
    canonicalJson (.obj fs1) = canonicalJson (.obj fs2) := by
  unfold canonicalJson
  have hkeys : jsSortStrings (ownKeys (.obj fs1)) = jsSortStrings (ownKeys (.obj fs2)) := by
    apply jsSortStrings_eq_of_perm
    simpa [ownKeys] using hperm.map Prod.fst
  rw [hkeys, jsonStringifyWith_obj_perm _ fs1 fs2 hperm hnd]

theorem pickFields_perm (r1 r2 : Row) (hperm : r1.Perm r2)
    (hnd : (r1.map Prod.fst).Nodup) (fields : List String) :
    pickFields r1 fields = pickFields r2 fields := by
  unfold pickFields
  have hfun : (fun (acc : Row) (f : String) =>
      if Row.hasKey r1 f then Row.setProp acc f (Row.getProp r1 f) else acc)
      = (fun (acc : Row) (f : String) =>
      if Row.hasKey r2 f then Row.setProp acc f (Row.getProp r2 f) else acc) := by
    funext acc f
    rw [rowHasKey_perm r1 r2 hperm f, rowGetProp_perm r1 r2 hperm hnd f]
  rw [hfun]

theorem setProp_of_not_hasKey (r : Row) (k : String) (v : JValue)
    (h : Row.hasKey r k = false) : Row.setProp r k v = r ++ [(k, v)] := by
  induction r with
  | nil => rfl
  | cons p rest ih =>
    obtain ⟨k0, v0⟩ := p
    simp only [Row.hasKey, List.any_cons, Bool.or_eq_false_iff] at h
    simp only [Row.setProp, h.1, Bool.false_eq_true, if_false, List.cons_append]
    rw [ih]
    unfold Row.hasKey
    exact h.2

theorem hasKey_append (a b : Row) (k : String) :
    Row.hasKey (a ++ b) k = (Row.hasKey a k || Row.hasKey b k) := by
  simp [Row.hasKey]

theorem stripFold_general : ∀ (row : Row) (acc : Row),
    (∀ p ∈ row, Row.hasKey acc p.1 = false) → (row.map Prod.fst).Nodup →
    row.foldl (fun acc p => if p.1.startsWith "_" then acc else Row.setProp acc p.1 p.2) acc
      = acc ++ row.filter (fun p => !(p.1.startsWith "_")) := by
  intro row
  induction row with
  | nil => intro acc _ _; simp
  | cons p rest ih =>
    intro acc hkeys hnd
    obtain ⟨k, v⟩ := p
    have hndrest : (rest.map Prod.fst).Nodup := (List.nodup_cons.mp hnd).2
    have hknotin : k ∉ rest.map Prod.fst := (List.nodup_cons.mp hnd).1
    by_cases hu : k.startsWith "_"
    · have hrest : ∀ q ∈ rest, Row.hasKey acc q.1 = false := fun q hq =>
        hkeys q (List.mem_cons_of_mem _ hq)
      simp only [List.foldl_cons, hu, if_true, List.filter_cons]
      rw [ih acc hrest hndrest]
      simp [hu]
    · have hset : Row.setProp acc k v = acc ++ [(k, v)] :=
        setProp_of_not_hasKey acc k v (hkeys (k, v) (List.mem_cons_self _ _))
      have hrest : ∀ q ∈ rest, Row.hasKey (acc ++ [(k, v)]) q.1 = false := by
        intro q hq
        rw [hasKey_append]
        have h1 : Row.hasKey acc q.1 = false := hkeys q (List.mem_cons_of_mem _ hq)
        have h2 : Row.hasKey [(k, v)] q.1 = false := by
          have hne : q.1 ≠ k := by
            intro he
            exact hknotin (he ▸ List.mem_map_of_mem Prod.fst hq)
          simp [Row.hasKey, Ne.symm hne]
        rw [h1, h2]
        rfl
      simp only [List.foldl_cons, hu, Bool.false_eq_true, if_false, List.filter_cons]
      rw [hset, ih (acc ++ [(k, v)]) hrest hndrest]
      simp [hu]

theorem stripInternalFields_eq_filter (row : Row) (hnd : (row.map Prod.fst).Nodup) :
    stripInternalFields row = row.filter (fun p => !(p.1.startsWith "_")) := by
  unfold stripInternalFields
  have := stripFold_general row [] (fun p _ => rfl) hnd
  simpa using this

/-- C6 (corrected).  Counterexample to the claim as stated: with the custom
marking strategy, the caller-supplied comparator receives the raw row object and
can observe its field insertion order, so two rows holding identical key/value
pairs in different orders can hash differently.  Concretely, a comparator
returning the name of the first field distinguishes the two orderings of the
same two fields. -/
theorem rowSignature_order_counterexample :
    generateRowSignature (fun s => s)
        [("a", JValue.num 1), ("b", JValue.num 2)]
        ⟨"custom", none, none, some (fun row => .value (.str (match row with
          | [] => ""
          | p :: _ => p.1)))⟩
      ≠ generateRowSignature (fun s => s)
        [("b", JValue.num 2), ("a", JValue.num 1)]
        ⟨"custom", none, none, some (fun row => .value (.str (match row with
          | [] => ""
          | p :: _ => p.1)))⟩
    ∧ List.Perm [("a", JValue.num 1), ("b", JValue.num 2)]
        [("b", JValue.num 2), ("a", JValue.num 1)] :=
  ⟨by decide, List.Perm.swap _ _ _⟩

/-- C6 (amended): for every hash function, every pair of rows holding the same
key/value pairs in different insertion orders (with the well-formed distinct
keys of JavaScript objects), and every tracking configuration that does not
route through a caller-supplied custom comparator, the row signature is
invariant under the permutation: fields are sorted by key before hashing. -/
theorem rowSignature_insertion_order_invariant (hash : String → String) (r1 r2 : Row)
    (opts : TrackingOptions) (hperm : r1.Perm r2) (hnd : (r1.map Prod.fst).Nodup)
    (hcustom : opts.markingStrategy = "custom" → opts.customComparator = none) :
    generateRowSignature hash r1 opts = generateRowSignature hash r2 opts := by
  unfold generateRowSignature
  congr 1
  have hnd2 : (r2.map Prod.fst).Nodup := (hperm.map Prod.fst).nodup_iff.mp hnd
  unfold dataToHashOf
  by_cases h1 : opts.markingStrategy = "hash"
  · simp only [h1, beq_self_eq_true, if_true]
    cases hf : opts.hashFields with
    | some fields =>
      show canonicalJson (JValue.obj (pickFields r1 fields))
          = canonicalJson (JValue.obj (pickFields r2 fields))
      rw [pickFields_perm r1 r2 hperm hnd fields]
    | none =>
      show canonicalJson (JValue.obj (stripInternalFields r1))
          = canonicalJson (JValue.obj (stripInternalFields r2))
      have hstrip : (stripInternalFields r1).Perm (stripInternalFields r2) := by
        rw [stripInternalFields_eq_filter r1 hnd, stripInternalFields_eq_filter r2 hnd2]
        exact hperm.filter _
      have hndstrip : ((stripInternalFields r1).map Prod.fst).Nodup := by
        rw [stripInternalFields_eq_filter r1 hnd]
        exact List.Nodup.sublist ((List.filter_sublist r1).map Prod.fst) hnd
      exact canonicalJson_obj_perm _ _ hstrip hndstrip
  · have hb1 : (opts.markingStrategy == "hash") = false := by simp [h1]
    by_cases h2 : opts.markingStrategy = "composite"
    · have hb2 : (opts.markingStrategy == "composite") = true := by simp [h2]
      simp only [hb1, hb2, Bool.false_eq_true, if_false, if_true]
      rw [pickFields_perm r1 r2 hperm hnd]
    · have hb2 : (opts.markingStrategy == "composite") = false := by simp [h2]
      by_cases h3 : opts.markingStrategy = "custom"
      · have hb3 : (opts.markingStrategy == "custom") = true := by simp [h3]
        have hcc := hcustom h3
        simp only [hb1, hb2, hb3, Bool.false_eq_true, if_false, if_true, hcc]
        exact canonicalJson_obj_perm r1 r2 hperm hnd
      · have hb3 : (opts.markingStrategy == "custom") = false := by simp [h3]
        simp only [hb1, hb2, hb3, Bool.false_eq_true, if_false]
        exact canonicalJson_obj_perm r1 r2 hperm hnd

/-- Concrete instance of the insertion-order invariance: the default hash
strategy over the two orderings of the same two fields. -/
theorem rowSignature_insertion_order_invariant_witness :
    List.Perm [("a", JValue.num 1), ("b", JValue.num 2)]
        [("b", JValue.num 2), ("a", JValue.num 1)]
    ∧ generateRowSignature (fun s => s) [("a", JValue.num 1), ("b", JValue.num 2)]
        ⟨"hash", none, none, none⟩
      = generateRowSignature (fun s => s) [("b", JValue.num 2), ("a", JValue.num 1)]
        ⟨"hash", none, none, none⟩ :=
  ⟨List.Perm.swap _ _ _,
   rowSignature_insertion_order_invariant (fun s => s) _ _ _
     (List.Perm.swap _ _ _) (by decide) (fun h => by simp at h)⟩

/-- Whitespace class of the regex backslash-s as it occurs in SQL text: space,
tab, line feed, carriage return, form feed and vertical tab. -/
def isJsWs (c : Char) : Bool :=
  c = Char.ofNat 32 || c = Char.ofNat 9 || c = Char.ofNat 10 || c = Char.ofNat 13 ||
  c = Char.ofNat 12 || c = Char.ofNat 11

/-- State machine of the global whitespace-run replacement: every maximal run of
whitespace becomes one space, tracked by whether the previous character was
whitespace. -/
def collapseWsAux : Bool → List Char → List Char
  | _, [] => []
  | prevWs, c :: rest =>
    if isJsWs c then
      (if prevWs then collapseWsAux true rest
       else Char.ofNat 32 :: collapseWsAux true rest)
    else c :: collapseWsAux false rest

/-- Replacement of every whitespace run by a single space, the regex replace of
the SQL canonicalization. -/
def collapseWs (cs : List Char) : List Char :=
  collapseWsAux false cs

/-- Removal of trailing whitespace. -/
def backTrimWs (cs : List Char) : List Char :=
  (cs.reverse.dropWhile isJsWs).reverse

/-- Model of String.prototype.trim: leading and trailing whitespace removed. -/
def jsTrimWs (cs : List Char) : List Char :=
  backTrimWs (cs.dropWhile isJsWs)

/-- Character-wise lowercasing, the toLowerCase step (modelled on the basic
case mapping). -/
def toLowerList (cs : List Char) : List Char :=
  cs.map Char.toLower

/-- Translation of the SQL canonicalization of generateQuerySignature: collapse
whitespace runs, trim, lowercase, in source order. -/
def normalizeSql (s : String) : String :=
  String.mk (toLowerList (jsTrimWs (collapseWs s.toList)))

/-- Maximal non-whitespace runs of a character list, accumulated in reverse. -/
def sqlWordsAux (cur : List Char) : List Char → List (List Char)
  | [] => if cur.isEmpty then [] else [cur.reverse]
  | c :: rest =>
    if isJsWs c then
      (if cur.isEmpty then sqlWordsAux [] rest else cur.reverse :: sqlWordsAux [] rest)
    else sqlWordsAux (c :: cur) rest

/-- Words of an SQL text: its maximal non-whitespace runs, in order. -/
def sqlWords (cs : List Char) : List (List Char) :=
  sqlWordsAux [] cs

/-- Words joined by single spaces. -/
def joinWords : List (List Char) → List Char
  | [] => []
  | [w] => w
  | w :: rest => w ++ Char.ofNat 32 :: joinWords rest

/-- Serialization of the signatureData object of generateQuerySignature, the
JSON.stringify of its two fields in their fixed insertion order. -/
def querySigPayload (normalizedSql : String) (paramKeys : List String) : String :=
  "\x7b" ++ jsonQuote "sql" ++ ":" ++ jsonQuote normalizedSql ++ "," ++ jsonQuote "paramKeys"
    ++ ":[" ++ String.intercalate "," (paramKeys.map jsonQuote) ++ "]\x7d"

/-- Translation of generateQuerySignature: normalized SQL and the sorted bind
parameter names (never the bound values) serialized and hashed. -/
def generateQuerySignature (hash : String → String) (sql : String) (bindParams : Row) :
    String :=
  hash (querySigPayload (normalizeSql sql) (jsSortStrings (bindParams.map Prod.fst)))

theorem collapseAux_ws_skip : ∀ (pre rest : List Char),
    (∀ c ∈ pre, isJsWs c = true) →
    collapseWsAux true (pre ++ rest) = collapseWsAux true rest := by
  intro pre
  induction pre with
  | nil => intro rest _; rfl
  | cons p ps ih =>
    intro rest hall
    have hp : isJsWs p = true := hall p (List.mem_cons_self _ _)
    simp only [List.cons_append, collapseWsAux, hp, if_true]
    exact ih rest (fun c hc => hall c (List.mem_cons_of_mem _ hc))

theorem collapseAux_false_word : ∀ (w rest : List Char),
    (∀ c ∈ w, isJsWs c = false) →
    collapseWsAux false (w ++ rest) = w ++ collapseWsAux false rest := by
  intro w
  induction w with
  | nil => intro rest _; rfl
  | cons x xs ih =>
    intro rest hall
    have hx : isJsWs x = false := hall x (List.mem_cons_self _ _)
    simp only [List.cons_append, collapseWsAux, hx, Bool.false_eq_true, if_false,
      List.append_eq]
    rw [ih rest (fun c hc => hall c (List.mem_cons_of_mem _ hc))]

theorem collapseAux_word (b : Bool) (x : Char) (xs rest : List Char)
    (hx : isJsWs x = false) (hxs : ∀ c ∈ xs, isJsWs c = false) :
    collapseWsAux b ((x :: xs) ++ rest) = x :: (xs ++ collapseWsAux false rest) := by
  simp only [List.cons_append, collapseWsAux, hx, Bool.false_eq_true, if_false,
    List.append_eq]
  rw [collapseAux_false_word xs rest hxs]

theorem collapse_all_ws (l : List Char) (h : ∀ c ∈ l, isJsWs c = true) :
    collapseWs l = if l.isEmpty then [] else [Char.ofNat 32] := by
  cases l with
  | nil => rfl
  | cons c r =>
    have hc : isJsWs c = true := h c (List.mem_cons_self _ _)
    simp only [collapseWs, collapseWsAux, hc, if_true, Bool.false_eq_true, if_false,
      List.isEmpty_cons]
    have := collapseAux_ws_skip r [] (fun d hd => h d (List.mem_cons_of_mem _ hd))
    simp only [List.append_nil] at this
    rw [this]
    rfl

theorem collapseAux_true_shape : ∀ (l : List Char),
    collapseWsAux true l = []
    ∨ ∃ d t, collapseWsAux true l = d :: t ∧ isJsWs d = false := by
  intro l
  induction l with
  | nil => exact Or.inl rfl
  | cons c r ih =>
    by_cases hc : isJsWs c = true
    · simpa [collapseWsAux, hc] using ih
    · have hc2 : isJsWs c = false := by
        cases h : isJsWs c
        · rfl
        · exact absurd h hc
      exact Or.inr ⟨c, collapseWsAux false r, by simp [collapseWsAux, hc2], hc2⟩

theorem dropWhile_append_all {p : Char → Bool} : ∀ (pre tail : List Char),
    (∀ c ∈ pre, p c = true) →
    (pre ++ tail).dropWhile p = tail.dropWhile p := by
  intro pre
  induction pre with
  | nil => intro tail _; rfl
  | cons x xs ih =>
    intro tail hall
    have hx := hall x (List.mem_cons_self _ _)
    simp only [List.cons_append, List.dropWhile_cons, hx, if_true]
    exact ih tail (fun c hc => hall c (List.mem_cons_of_mem _ hc))

theorem dropWhile_eq_self_of_shape {p : Char → Bool} (l : List Char)
    (h : l = [] ∨ ∃ d t, l = d :: t ∧ p d = false) : l.dropWhile p = l := by
  rcases h with h | ⟨d, t, he, hd⟩
  · rw [h]; rfl
  · rw [he]
    simp [List.dropWhile_cons, hd]

theorem dropWhile_append_of_ne_nil {p : Char → Bool} : ∀ (a b : List Char),
    a.dropWhile p ≠ [] → (a ++ b).dropWhile p = a.dropWhile p ++ b := by
  intro a
  induction a with
  | nil => intro b h; exact absurd rfl h
  | cons x xs ih =>
    intro b h
    by_cases hx : p x = true
    · simp only [List.dropWhile_cons, hx, if_true] at h ⊢
      simp only [List.cons_append, List.dropWhile_cons, hx, if_true]
      exact ih b h
    · have hx2 : p x = false := by
        cases hv : p x
        · rfl
        · exact absurd hv hx
      simp [List.dropWhile_cons, hx2]

theorem head_of_dropWhile {p : Char → Bool} : ∀ (l : List Char) (c : Char) (rest : List Char),
    l.dropWhile p = c :: rest → p c = false := by
  intro l
  induction l with
  | nil => intro c rest h; exact absurd h (by simp)
  | cons x xs ih =>
    intro c rest h
    by_cases hx : p x = true
    · rw [List.dropWhile_cons, if_pos hx] at h
      exact ih c rest h
    · have hx2 : p x = false := by
        cases hv : p x
        · rfl
        · exact absurd hv hx
      rw [List.dropWhile_cons] at h
      rw [hx2] at h
      simp only [Bool.false_eq_true, if_false] at h
      cases h
      exact hx2

theorem backTrim_append_word (w X : List Char) (hne : w ≠ [])
    (hall : ∀ c ∈ w, isJsWs c = false) :
    backTrimWs (w ++ X) = w ++ backTrimWs X := by
  unfold backTrimWs
  rw [List.reverse_append]
  by_cases h : X.reverse.dropWhile isJsWs = []
  · have hrevall : ∀ c ∈ X.reverse, isJsWs c = true := by
      intro c hc
      exact List.dropWhile_eq_nil_iff.mp h c hc
    rw [dropWhile_append_all X.reverse w.reverse hrevall, h]
    have hwrev : w.reverse.dropWhile isJsWs = w.reverse := by
      apply dropWhile_eq_self_of_shape
      cases hv : w.reverse with
      | nil =>
        exact absurd (by simpa using hv) hne
      | cons d t =>
        right
        refine ⟨d, t, rfl, ?_⟩
        have : d ∈ w := by
          have : d ∈ w.reverse := by rw [hv]; exact List.mem_cons_self _ _
          simpa using this
        exact hall d this
    rw [hwrev]
    simp
  · rw [dropWhile_append_of_ne_nil X.reverse w.reverse h]
    simp

theorem backTrim_space_cons (Y : List Char) (h : backTrimWs Y ≠ []) :
    backTrimWs (Char.ofNat 32 :: Y) = Char.ofNat 32 :: backTrimWs Y := by
  unfold backTrimWs at h ⊢
  have hne : Y.reverse.dropWhile isJsWs ≠ [] := by
    intro hc
    rw [hc] at h
    exact h rfl
  have hrev : (Char.ofNat 32 :: Y).reverse = Y.reverse ++ [Char.ofNat 32] := by
    simp
  rw [hrev, dropWhile_append_of_ne_nil Y.reverse [Char.ofNat 32] hne]
  simp

theorem backTrim_ne_nil_of_head (d : Char) (t : List Char) (hd : isJsWs d = false) :
    backTrimWs (d :: t) ≠ [] := by
  unfold backTrimWs
  intro hc
  have h0 : (d :: t).reverse.dropWhile isJsWs = [] := by
    have := congrArg List.reverse hc
    simpa using this
  have hall := List.dropWhile_eq_nil_iff.mp h0
  have hdmem : d ∈ (d :: t).reverse := by simp
  have := hall d hdmem
  rw [hd] at this
  exact absurd this (by simp)

theorem sqlWordsAux_accumulate : ∀ (w cur rest : List Char),
    (∀ c ∈ w, isJsWs c = false) →
    sqlWordsAux cur (w ++ rest) = sqlWordsAux (w.reverse ++ cur) rest := by
  intro w
  induction w with
  | nil => intro cur rest _; rfl
  | cons x xs ih =>
    intro cur rest hall
    have hx : isJsWs x = false := hall x (List.mem_cons_self _ _)
    simp only [List.cons_append, sqlWordsAux, hx, Bool.false_eq_true, if_false,
      List.append_eq]
    rw [ih (x :: cur) rest (fun c hc => hall c (List.mem_cons_of_mem _ hc))]
    congr 1
    simp

theorem sqlWordsAux_ws_skip : ∀ (pre rest : List Char),
    (∀ c ∈ pre, isJsWs c = true) →
    sqlWordsAux [] (pre ++ rest) = sqlWordsAux [] rest := by
  intro pre
  induction pre with
  | nil => intro rest _; rfl
  | cons x xs ih =>
    intro rest hall
    have hx : isJsWs x = true := hall x (List.mem_cons_self _ _)
    simp only [List.cons_append, sqlWordsAux, hx, if_true, List.isEmpty_nil]
    exact ih rest (fun c hc => hall c (List.mem_cons_of_mem _ hc))

theorem sqlWordsAux_words_ne_nil : ∀ (l cur : List Char) (w : List Char),
    w ∈ sqlWordsAux cur l → (cur.isEmpty = false ∨ l ≠ []) → w ≠ [] := by
  intro l
  induction l with
  | nil =>
    intro cur w hw _
    cases hcur : cur.isEmpty
    · simp only [sqlWordsAux, hcur, Bool.false_eq_true, if_false, List.mem_singleton] at hw
      subst hw
      intro hc
      have : cur = [] := by simpa using hc
      rw [this] at hcur
      simp at hcur
    · simp [sqlWordsAux, hcur] at hw
  | cons c r ih =>
    intro cur w hw _
    by_cases hc : isJsWs c = true
    · simp only [sqlWordsAux, hc, if_true] at hw
      cases hcur : cur.isEmpty
      · rw [hcur] at hw
        simp only [Bool.false_eq_true, if_false, List.mem_cons] at hw
        rcases hw with he | hm
        · subst he
          intro hcn
          have : cur = [] := by simpa using hcn
          rw [this] at hcur
          simp at hcur
        · by_cases hr : r = []
          · subst hr
            simp [sqlWordsAux] at hm
          · exact ih [] w hm (Or.inr hr)
      · rw [hcur] at hw
        simp only [if_true] at hw
        by_cases hr : r = []
        · subst hr
          simp [sqlWordsAux] at hw
        · exact ih [] w hw (Or.inr hr)
    · have hc2 : isJsWs c = false := by
        cases hv : isJsWs c
        · rfl
        · exact absurd hv hc
      simp only [sqlWordsAux, hc2, Bool.false_eq_true, if_false] at hw
      exact ih (c :: cur) w hw (Or.inl (by simp))

theorem joinWords_ne_nil (ws : List (List Char)) (hne : ws ≠ [])
    (hwords : ∀ w ∈ ws, w ≠ []) : joinWords ws ≠ [] := by
  cases ws with
  | nil => exact absurd rfl hne
  | cons w rest =>
    cases rest with
    | nil =>
      simp only [joinWords]
      exact hwords w (List.mem_cons_self _ _)
    | cons r rs =>
      simp [joinWords]

theorem toLower_joinWords : ∀ (ws : List (List Char)),
    toLowerList (joinWords ws) = joinWords (ws.map toLowerList) := by
  intro ws
  induction ws with
  | nil => rfl
  | cons w rest ih =>
    cases rest with
    | nil => rfl
    | cons r rs =>
      have hsp : Char.toLower (Char.ofNat 32) = Char.ofNat 32 := by decide
      simp only [joinWords, List.map_cons, toLowerList, List.map_append, List.map_cons, hsp]
      rw [show List.map Char.toLower (joinWords (r :: rs)) = toLowerList (joinWords (r :: rs))
        from rfl]
      rw [ih]
      rfl

theorem isJsWs_space : isJsWs (Char.ofNat 32) = true := by decide

theorem trimCollapse_eq_joinWords_aux : ∀ (n : Nat) (cs : List Char), cs.length ≤ n →
    jsTrimWs (collapseWs cs) = joinWords (sqlWords cs) := by
  intro n
  induction n with
  | zero =>
    intro cs hlen
    have : cs = [] := List.length_eq_zero.mp (Nat.le_zero.mp hlen)
    subst this
    rfl
  | succ n ihn =>
    intro cs hlen
    have hsplit : cs.takeWhile isJsWs ++ cs.dropWhile isJsWs = cs :=
      List.takeWhile_append_dropWhile _ _
    have hpre : ∀ d ∈ cs.takeWhile isJsWs, isJsWs d = true := fun d hd =>
      List.mem_takeWhile_imp hd
    cases hrest : cs.dropWhile isJsWs with
    | nil =>
      have hall : ∀ d ∈ cs, isJsWs d = true := by
        intro d hd
        rw [← hsplit] at hd
        rcases List.mem_append.mp hd with hm | hm
        · exact hpre d hm
        · rw [hrest] at hm
          exact absurd hm (List.not_mem_nil d)
      have hwords : sqlWords cs = [] := by
        have h1 : sqlWordsAux [] (cs ++ []) = sqlWordsAux [] [] :=
          sqlWordsAux_ws_skip cs [] hall
        simpa [sqlWords] using h1
      rw [collapse_all_ws cs hall, hwords]
      by_cases he : cs.isEmpty = true
      · simp only [he, if_true]
        rfl
      · have he2 : cs.isEmpty = false := by
          cases hv : cs.isEmpty
          · rfl
          · exact absurd hv he
        simp only [he2, Bool.false_eq_true, if_false]
        decide
    | cons c r2 =>
      have hc : isJsWs c = false := head_of_dropWhile cs c r2 hrest
      have hsplit2 : r2.takeWhile (fun d => !isJsWs d) ++ r2.dropWhile (fun d => !isJsWs d)
          = r2 := List.takeWhile_append_dropWhile _ _
      have hwordall : ∀ d ∈ r2.takeWhile (fun d => !isJsWs d), isJsWs d = false := by
        intro d hd
        have := List.mem_takeWhile_imp hd
        simpa using this
      have hwall : ∀ d ∈ (c :: r2.takeWhile (fun d => !isJsWs d)), isJsWs d = false := by
        intro d hd
        rcases List.mem_cons.mp hd with he | hm
        · exact he ▸ hc
        · exact hwordall d hm
      have hcs : cs = cs.takeWhile isJsWs
          ++ ((c :: r2.takeWhile (fun d => !isJsWs d)) ++ r2.dropWhile (fun d => !isJsWs d)) := by
        conv_lhs => rw [← hsplit, hrest]
        rw [List.cons_append, hsplit2]
      have hcollapse : collapseWs cs
          = (if (cs.takeWhile isJsWs).isEmpty then ([] : List Char) else [Char.ofNat 32])
            ++ (c :: (r2.takeWhile (fun d => !isJsWs d)
                ++ collapseWsAux false (r2.dropWhile (fun d => !isJsWs d)))) := by
        conv_lhs => rw [show collapseWs cs = collapseWsAux false cs from rfl, hcs]
        cases hpe : cs.takeWhile isJsWs with
        | nil =>
          simp only [List.nil_append, List.isEmpty_nil, if_true]
          exact collapseAux_word false c _ _ hc hwordall
        | cons p ps =>
          have hp : isJsWs p = true := by
            apply hpre
            rw [hpe]
            exact List.mem_cons_self _ _
          have hps : ∀ d ∈ ps, isJsWs d = true := by
            intro d hd
            apply hpre
            rw [hpe]
            exact List.mem_cons_of_mem _ hd
          simp only [List.cons_append, collapseWsAux, hp, if_true, List.isEmpty_cons,
            Bool.false_eq_true, if_false, List.append_eq, List.nil_append]
          rw [collapseAux_ws_skip ps _ hps]
          rw [← List.cons_append c (r2.takeWhile (fun d => !isJsWs d))
            (r2.dropWhile (fun d => !isJsWs d))]
          rw [collapseAux_word true c _ _ hc hwordall]
      have htrim : jsTrimWs (collapseWs cs)
          = backTrimWs ((c :: r2.takeWhile (fun d => !isJsWs d))
              ++ collapseWsAux false (r2.dropWhile (fun d => !isJsWs d))) := by
        rw [hcollapse]
        unfold jsTrimWs
        congr 1
        cases hb : (cs.takeWhile isJsWs).isEmpty
        · simp only [Bool.false_eq_true, if_false]
          simp [List.dropWhile_cons, isJsWs_space, hc]
        · simp only [if_true, List.nil_append]
          simp [List.dropWhile_cons, hc]
      have hbt : backTrimWs ((c :: r2.takeWhile (fun d => !isJsWs d))
            ++ collapseWsAux false (r2.dropWhile (fun d => !isJsWs d)))
          = (c :: r2.takeWhile (fun d => !isJsWs d))
            ++ backTrimWs (collapseWsAux false (r2.dropWhile (fun d => !isJsWs d))) :=
        backTrim_append_word _ _ (List.cons_ne_nil _ _) hwall
      have hwords2 : sqlWords cs = (c :: r2.takeWhile (fun d => !isJsWs d))
          :: sqlWords (r2.dropWhile (fun d => !isJsWs d)) := by
        unfold sqlWords
        conv_lhs => rw [hcs]
        rw [sqlWordsAux_ws_skip _ _ hpre]
        rw [sqlWordsAux_accumulate (c :: r2.takeWhile (fun d => !isJsWs d)) [] _ hwall]
        cases hdw : r2.dropWhile (fun d => !isJsWs d) with
        | nil =>
          simp [sqlWordsAux]
        | cons x t2 =>
          have hx : isJsWs x = true := by
            have := head_of_dropWhile r2 x t2 hdw
            simpa using this
          simp [sqlWords, sqlWordsAux, hx]
      have hdwshape : r2.dropWhile (fun d => !isJsWs d) = []
          ∨ ∃ x t2, r2.dropWhile (fun d => !isJsWs d) = x :: t2 ∧ isJsWs x = true := by
        cases hv : r2.dropWhile (fun d => !isJsWs d) with
        | nil => exact Or.inl rfl
        | cons x t2 =>
          right
          refine ⟨x, t2, rfl, ?_⟩
          have := head_of_dropWhile r2 x t2 hv
          simpa using this
      have hlenr2 : r2.length < cs.length := by
        have h2 : (c :: r2).length ≤ cs.length := by
          rw [← hrest]
          exact (List.dropWhile_sublist _).length_le
        simp only [List.length_cons] at h2
        omega
      have hlendw : (r2.dropWhile (fun d => !isJsWs d)).length ≤ r2.length :=
        (List.dropWhile_sublist _).length_le
      have ih := ihn (r2.dropWhile (fun d => !isJsWs d)) (by omega)
      rw [htrim, hbt, hwords2]
      cases srest : sqlWords (r2.dropWhile (fun d => !isJsWs d)) with
      | nil =>
        rw [srest] at ih
        rcases hdwshape with hdw | ⟨x, t2, hdw, hx⟩
        · rw [hdw]
          simp [joinWords, backTrimWs, collapseWsAux]
        · rw [hdw] at ih ⊢
          have hXeq : collapseWsAux false (x :: t2)
              = Char.ofNat 32 :: collapseWsAux true t2 := by
            simp [collapseWsAux, hx]
          have hYshape := collapseAux_true_shape t2
          have hih2 : backTrimWs (collapseWsAux true t2) = [] := by
            rw [show collapseWs (x :: t2) = collapseWsAux false (x :: t2) from rfl, hXeq] at ih
            unfold jsTrimWs at ih
            rw [List.dropWhile_cons] at ih
            simp only [isJsWs_space, if_true] at ih
            rw [dropWhile_eq_self_of_shape _ hYshape] at ih
            simpa [joinWords] using ih
          have hY : collapseWsAux true t2 = [] := by
            rcases hYshape with hY | ⟨d, t, hYe, hd⟩
            · exact hY
            · rw [hYe] at hih2
              exact absurd hih2 (backTrim_ne_nil_of_head d t hd)
          rw [hXeq, hY]
          simp [joinWords, backTrimWs, List.dropWhile_cons, isJsWs_space]
      | cons w2 ws2 =>
        rcases hdwshape with hdw | ⟨x, t2, hdw, hx⟩
        · rw [hdw] at srest
          simp [sqlWords, sqlWordsAux] at srest
        · rw [hdw] at srest ih ⊢
          have hXeq : collapseWsAux false (x :: t2)
              = Char.ofNat 32 :: collapseWsAux true t2 := by
            simp [collapseWsAux, hx]
          have hYshape := collapseAux_true_shape t2
          have hihY : backTrimWs (collapseWsAux true t2) = joinWords (w2 :: ws2) := by
            rw [show collapseWs (x :: t2) = collapseWsAux false (x :: t2) from rfl, hXeq] at ih
            unfold jsTrimWs at ih
            rw [List.dropWhile_cons] at ih
            simp only [isJsWs_space, if_true] at ih
            rw [dropWhile_eq_self_of_shape _ hYshape] at ih
            rw [srest] at ih
            exact ih
          have hYne : backTrimWs (collapseWsAux true t2) ≠ [] := by
            rw [hihY]
            apply joinWords_ne_nil
            · simp
            · intro w hw
              have hw2 : w ∈ sqlWordsAux [] (x :: t2) := by
                have : w ∈ sqlWords (x :: t2) := by
                  rw [srest]
                  exact hw
                exact this
              exact sqlWordsAux_words_ne_nil (x :: t2) [] w hw2 (Or.inr (by simp))
          rw [hXeq, backTrim_space_cons _ hYne, hihY]
          rfl

theorem trimCollapse_eq_joinWords (cs : List Char) :
    jsTrimWs (collapseWs cs) = joinWords (sqlWords cs) :=
  trimCollapse_eq_joinWords_aux cs.length cs le_rfl

theorem normalizeSql_eq_joinWords (s : String) :
    normalizeSql s = String.mk (joinWords ((sqlWords s.toList).map toLowerList)) := by
  unfold normalizeSql
  rw [trimCollapse_eq_joinWords, toLower_joinWords]

/-- C7: the query signature depends on the bound parameters only through the
sorted list of their names, never through their values; and two SQL texts whose
lowercased word sequences coincide (texts differing only in whitespace runs,
leading or trailing whitespace, or letter case) produce the same signature, for
every hash function. -/
theorem querySignature_value_and_whitespace_invariant (hash : String → String)
    (sql1 sql2 : String) (p1 p2 : Row)
    (hkeys : (p1.map Prod.fst).Perm (p2.map Prod.fst))
    (hwords : (sqlWords sql1.toList).map toLowerList
        = (sqlWords sql2.toList).map toLowerList) :
    generateQuerySignature hash sql1 p1 = generateQuerySignature hash sql2 p2 := by
  unfold generateQuerySignature
  have hsql : normalizeSql sql1 = normalizeSql sql2 := by
    rw [normalizeSql_eq_joinWords, normalizeSql_eq_joinWords, hwords]
  have hpk : jsSortStrings (p1.map Prod.fst) = jsSortStrings (p2.map Prod.fst) :=
    jsSortStrings_eq_of_perm _ _ hkeys
  rw [hsql, hpk]

/-- Concrete instance of the query-signature invariance: the same SQL up to
whitespace and case, and the same parameter names bound to different values. -/
theorem querySignature_invariance_witness :
    ((List.map Prod.fst [("b", JValue.num 1), ("a", JValue.num 2)]).Perm
        (List.map Prod.fst [("a", JValue.str "x"), ("b", JValue.null)])
    ∧ (sqlWords "SELECT  *  FROM t ".toList).map toLowerList
        = (sqlWords "select * from t".toList).map toLowerList)
    ∧ generateQuerySignature (fun s => s) "SELECT  *  FROM t "
        [("b", JValue.num 1), ("a", JValue.num 2)]
      = generateQuerySignature (fun s => s) "select * from t"
        [("a", JValue.str "x"), ("b", JValue.null)] := by
  refine ⟨⟨List.Perm.swap _ _ _, by decide⟩, ?_⟩
  exact querySignature_value_and_whitespace_invariant (fun s => s) _ _ _ _
    (List.Perm.swap _ _ _) (by decide)

/-! ### Fuzzy join (_performFuzzyJoin) -/

/-- Options of the fuzzy join read from fuzzyOptions. -/
structure FuzzyOptions where
  threshold : Rat
  maxResultsPerKey : Nat
  useOrLogic : Bool
  sortFuzzyResults : Bool
  includeScoreInResult : Bool

/-- Entry of allMatchingRows for one right row: the per-condition scores pushed
so far and the stored avgScore field. -/
structure FuzzyEntry where
  scores : List Rat
  avgScore : Rat
  deriving DecidableEq

/-- Map.get on the match map; right rows are referenced by their position in the
right dataset, standing for their object identity. -/
def natMapGet (m : List (Nat × FuzzyEntry)) (k : Nat) : Option FuzzyEntry :=
  match m.find? (fun p => p.1 == k) with
  | some p => some p.2
  | none => none

/-- Map.set on the match map: updates the value in place when the key is present
(keeping its insertion position), otherwise appends. -/
def natMapSet (m : List (Nat × FuzzyEntry)) (k : Nat) (v : FuzzyEntry) :
    List (Nat × FuzzyEntry) :=
  match m with
  | [] => [(k, v)]
  | (k0, v0) :: rest =>
    if k0 == k then (k0, v) :: rest else (k0, v0) :: natMapSet rest k v

/-- Set.add on the matched-right-row set of positions. -/
def natSetAdd (s : List Nat) (i : Nat) : List Nat :=
  if s.contains i then s else s ++ [i]

/-- Search patterns of one left row: one per condition, keyed by the condition
right key and carrying the left row value at the left key path; patterns whose
value is null or undefined are filtered out. -/
def searchPatterns (conds : List JoinCondition) (leftRow : Row) :
    List (String × JValue) :=
  (conds.map (fun c => (c.rightKey, getNestedProperty leftRow c.leftKey))).filter
    (fun p => !(p.2 == JValue.null) && !(p.2 == JValue.undef))

/-- Per-condition match lists: one Fuse search per surviving pattern (the search
engine is a parameter returning position/score pairs over the right dataset, as
fuse.search returns items of that dataset), conditions with no matches dropped,
each list truncated to maxResultsPerKey. -/
def conditionMatches (fsearch : String → String → List (Nat × Rat))
    (opts : FuzzyOptions) (conds : List JoinCondition) (leftRow : Row) :
    List (List (Nat × Rat)) :=
  (searchPatterns conds leftRow).filterMap (fun p =>
    let ms := fsearch p.1 (jsToString p.2)
    if ms.isEmpty then none else some (ms.take opts.maxResultsPerKey))

/-- One step of the allMatchingRows accumulation for one (right row, score)
match: a first sighting, or any sighting under OR logic, resets the entry to
this single condition and its score; otherwise the condition is appended and the
stored average recomputed. -/
def fuzzyStep (useOr : Bool) (m : List (Nat × FuzzyEntry)) (p : Nat × Rat) :
    List (Nat × FuzzyEntry) :=
  match natMapGet m p.1 with
  | none => natMapSet m p.1 ⟨[p.2], p.2⟩
  | some e =>
    if useOr then natMapSet m p.1 ⟨[p.2], p.2⟩
    else
      let scores := e.scores ++ [p.2]
      natMapSet m p.1 ⟨scores, scores.sum / (scores.length : Rat)⟩

/-- The allMatchingRows map after processing the flattened condition matches in
condition-major, match-minor order. -/
def fuzzyAccum (useOr : Bool) (pairs : List (Nat × Rat)) :
    List (Nat × FuzzyEntry) :=
  pairs.foldl (fuzzyStep useOr) []

/-- matchingRows: entries surviving the AND/OR filter against the configured
condition count, projected to (right row, stored avgScore). -/
def fuzzyMatching (opts : FuzzyOptions) (conds : List JoinCondition)
    (pairs : List (Nat × Rat)) : List (Nat × Rat) :=
  ((fuzzyAccum opts.useOrLogic pairs).filter
    (fun ke => opts.useOrLogic || ke.2.scores.length == conds.length)).map
    (fun ke => (ke.1, ke.2.avgScore))

/-- Stable insertion of one scored row into an ascending run, placed before the
first strictly greater score. -/
def insertByScore (x : Nat × Rat) : List (Nat × Rat) → List (Nat × Rat)
  | [] => [x]
  | y :: ys => if x.2 < y.2 then x :: y :: ys else y :: insertByScore x ys

/-- The stable ascending sort of matchingRows by score, the comparator
(a, b) => a.score - b.score. -/
def sortByScore (l : List (Nat × Rat)) : List (Nat × Rat) :=
  l.foldr insertByScore []

/-- Accepted matches of one left row: matchingRows, sorted when sortFuzzyResults
is set, kept when the stored score passes the threshold test. -/
def fuzzyAccepted (opts : FuzzyOptions) (conds : List JoinCondition)
    (pairs : List (Nat × Rat)) : List (Nat × Rat) :=
  (if opts.sortFuzzyResults then sortByScore (fuzzyMatching opts conds pairs)
   else fuzzyMatching opts conds pairs).filter
    (fun p => decide (p.2 ≤ opts.threshold))

/-- The _fuzzyScore attachment on a joined row under includeScoreInResult;
assignment on a non-object transform result is modelled as a no-op. -/
def attachScore (v : JValue) (s : Rat) : JValue :=
  match v with
  | .obj fs => .obj (Row.setProp fs "_fuzzyScore" (.num s))
  | other => other

/-- The right row a position/score pair denotes. -/
def rightAt (R : List Row) (i : Nat) : Row := R.getD i []

/-- Accumulator of the fuzzy join: emitted rows and matched right positions. -/
structure FuzzyAcc where
  out : List JValue
  matched : List Nat

/-- Emission of one accepted match: the merged row, with the score attached when
requested, and the right row marked as matched for right and full joins. -/
def fuzzyEmitStep (R : List Row) (jt : JoinType) (t : Option Transform)
    (opts : FuzzyOptions) (leftRow : Row) (a : FuzzyAcc) (p : Nat × Rat) :
    FuzzyAcc :=
  let joined := mergeRows (some leftRow) (some (rightAt R p.1)) t
  let joined2 := if opts.includeScoreInResult then attachScore joined p.2
    else joined
  ⟨a.out ++ [joined2],
   if jt == JoinType.right || jt == JoinType.full then natSetAdd a.matched p.1
   else a.matched⟩

/-- Processing of one left row of the fuzzy join: left and full joins emit a
null-merged row when no pattern survives or no condition has matches; otherwise
the accepted matches are emitted in order. -/
def fuzzyLeftStep (fsearch : String → String → List (Nat × Rat)) (R : List Row)
    (conds : List JoinCondition) (jt : JoinType) (t : Option Transform)
    (opts : FuzzyOptions) (acc : FuzzyAcc) (leftRow : Row) : FuzzyAcc :=
  if (searchPatterns conds leftRow).isEmpty then
    if jt == JoinType.left || jt == JoinType.full then
      ⟨acc.out ++ [mergeRows (some leftRow) none t], acc.matched⟩
    else acc
  else
    let cm := conditionMatches fsearch opts conds leftRow
    if cm.isEmpty then
      if jt == JoinType.left || jt == JoinType.full then
        ⟨acc.out ++ [mergeRows (some leftRow) none t], acc.matched⟩
      else acc
    else
      (fuzzyAccepted opts conds cm.flatten).foldl
        (fuzzyEmitStep R jt t opts leftRow) acc

/-- Translation of _performFuzzyJoin over a parametric search engine: the left
rows processed in order, then, for right and full joins, the unmatched right
rows merged with a null left side. -/
def performFuzzyJoin (fsearch : String → String → List (Nat × Rat))
    (L R : List Row) (conds : List JoinCondition) (jt : JoinType)
    (t : Option Transform) (opts : FuzzyOptions) : List JValue :=
  let afterLeft := L.foldl (fuzzyLeftStep fsearch R conds jt t opts) ⟨[], []⟩
  if jt == JoinType.right || jt == JoinType.full then
    afterLeft.out ++
      ((List.range R.length).filter
        (fun i => !(afterLeft.matched.contains i))).map
        (fun i => mergeRows none (some (rightAt R i)) t)
  else afterLeft.out

/-- All scores a given right row receives across the flattened condition
matches, in iteration order. -/
def fuzzyOccurrences (pairs : List (Nat × Rat)) (r : Nat) : List Rat :=
  (pairs.filter (fun p => p.1 == r)).map Prod.snd

/-- Entry written for a right row by one accumulation step, as a function of the
previously stored entry. -/
def stepEntry (useOr : Bool) (prev : Option FuzzyEntry) (s : Rat) : FuzzyEntry :=
  match prev with
  | none => ⟨[s], s⟩
  | some e =>
    if useOr then ⟨[s], s⟩
    else ⟨e.scores ++ [s], (e.scores ++ [s]).sum / (((e.scores ++ [s]).length : Nat) : Rat)⟩

theorem natMapGet_nil (r : Nat) : natMapGet [] r = none := rfl

theorem natMapGet_cons (k0 : Nat) (v0 : FuzzyEntry) (rest : List (Nat × FuzzyEntry))
    (r : Nat) :
    natMapGet ((k0, v0) :: rest) r = if k0 == r then some v0 else natMapGet rest r := by
  by_cases h : k0 = r
  · simp [natMapGet, List.find?, h]
  · have hb : (k0 == r) = false := by simp [h]
    simp [natMapGet, List.find?, hb]

theorem natMapGet_natMapSet (m : List (Nat × FuzzyEntry)) (k : Nat) (v : FuzzyEntry)
    (r : Nat) :
    natMapGet (natMapSet m k v) r = if k == r then some v else natMapGet m r := by
  induction m with
  | nil =>
    by_cases h : k = r <;> simp [natMapSet, natMapGet_cons, natMapGet_nil, h]
  | cons p rest ih =>
    obtain ⟨k0, v0⟩ := p
    by_cases h1 : k0 = k
    · subst h1
      simp only [natMapSet, beq_self_eq_true, if_true]
      by_cases h2 : k0 = r <;> simp [natMapGet_cons, h2]
    · have hb1 : (k0 == k) = false := by simp [h1]
      simp only [natMapSet, hb1, Bool.false_eq_true, if_false]
      by_cases h2 : k0 = r
      · have h0 : ¬ k = r := fun hh => h1 (h2.trans hh.symm)
        simp [natMapGet_cons, h2, h0]
      · simp [natMapGet_cons, h2, ih]

theorem natMapSet_keys (m : List (Nat × FuzzyEntry)) (k : Nat) (v : FuzzyEntry) :
    (natMapSet m k v).map Prod.fst
      = if k ∈ m.map Prod.fst then m.map Prod.fst else m.map Prod.fst ++ [k] := by
  induction m with
  | nil => simp [natMapSet]
  | cons p rest ih =>
    obtain ⟨k0, v0⟩ := p
    by_cases h : k0 = k
    · subst h
      simp [natMapSet]
    · have hb : (k0 == k) = false := by simp [h]
      have h2 : ¬ k = k0 := fun hh => h hh.symm
      by_cases hm : k ∈ rest.map Prod.fst <;>
        simp [natMapSet, hb, ih, h2, hm]

theorem natMapSet_keys_nodup (m : List (Nat × FuzzyEntry)) (k : Nat) (v : FuzzyEntry)
    (h : (m.map Prod.fst).Nodup) : ((natMapSet m k v).map Prod.fst).Nodup := by
  rw [natMapSet_keys]
  by_cases hm : k ∈ m.map Prod.fst
  · simp only [hm, if_true]
    exact h
  · simp only [hm, if_false]
    rw [List.nodup_append]
    refine ⟨h, List.nodup_singleton k, ?_⟩
    intro x hx hx2
    rw [List.mem_singleton.mp hx2] at hx
    exact hm hx

theorem fuzzyStep_get (useOr : Bool) (m : List (Nat × FuzzyEntry)) (a : Nat × Rat)
    (r : Nat) :
    natMapGet (fuzzyStep useOr m a) r
      = if a.1 == r then some (stepEntry useOr (natMapGet m a.1) a.2)
        else natMapGet m r := by
  unfold fuzzyStep stepEntry
  cases hg : natMapGet m a.1
  · exact natMapGet_natMapSet m a.1 _ r
  · cases useOr
    · exact natMapGet_natMapSet m a.1 _ r
    · exact natMapGet_natMapSet m a.1 _ r

theorem fuzzyAccum_keys_nodup (useOr : Bool) (pairs : List (Nat × Rat)) :
    ((fuzzyAccum useOr pairs).map Prod.fst).Nodup := by
  induction pairs using List.reverseRecOn with
  | nil => simp [fuzzyAccum]
  | append_singleton l a ih =>
    have hstep : fuzzyAccum useOr (l ++ [a]) = fuzzyStep useOr (fuzzyAccum useOr l) a := by
      simp [fuzzyAccum, List.foldl_append]
    rw [hstep]
    unfold fuzzyStep
    cases hg : natMapGet (fuzzyAccum useOr l) a.1
    · exact natMapSet_keys_nodup _ _ _ ih
    · cases useOr
      · exact natMapSet_keys_nodup _ _ _ ih
      · exact natMapSet_keys_nodup _ _ _ ih

theorem natMap_mem_iff_get (m : List (Nat × FuzzyEntry))
    (hnd : (m.map Prod.fst).Nodup) (k : Nat) (e : FuzzyEntry) :
    (k, e) ∈ m ↔ natMapGet m k = some e := by
  induction m with
  | nil => simp [natMapGet_nil]
  | cons p rest ih =>
    obtain ⟨k0, v0⟩ := p
    simp only [List.map_cons, List.nodup_cons] at hnd
    rw [natMapGet_cons]
    by_cases h : k0 = k
    · subst h
      simp only [beq_self_eq_true, if_true]
      constructor
      · intro hm
        rcases List.mem_cons.mp hm with he | hm2
        · have h2 : e = v0 := congrArg Prod.snd he
          rw [h2]
        · exact absurd (List.mem_map_of_mem Prod.fst hm2) hnd.1
      · intro hg
        have h2 : v0 = e := Option.some.inj hg
        rw [← h2]
        exact List.mem_cons_self _ _
    · have hb : (k0 == k) = false := by simp [h]
      simp only [hb, Bool.false_eq_true, if_false]
      constructor
      · intro hm
        rcases List.mem_cons.mp hm with he | hm2
        · exact absurd (congrArg Prod.fst he).symm h
        · exact (ih hnd.2).mp hm2
      · intro hg
        exact List.mem_cons_of_mem _ ((ih hnd.2).mpr hg)

theorem fuzzyOccurrences_append (p1 p2 : List (Nat × Rat)) (r : Nat) :
    fuzzyOccurrences (p1 ++ p2) r
      = fuzzyOccurrences p1 r ++ fuzzyOccurrences p2 r := by
  simp [fuzzyOccurrences, List.filter_append]

theorem fuzzyOccurrences_singleton (a : Nat × Rat) (r : Nat) :
    fuzzyOccurrences [a] r = if a.1 == r then [a.2] else [] := by
  cases h : (a.1 == r) <;> simp [fuzzyOccurrences, List.filter_cons, h]


theorem fuzzyAccum_get (useOr : Bool) (pairs : List (Nat × Rat)) : ∀ (r : Nat),
    natMapGet (fuzzyAccum useOr pairs) r =
      if (fuzzyOccurrences pairs r).isEmpty then none
      else some (if useOr then
          ⟨[(fuzzyOccurrences pairs r).getLastD 0],
            (fuzzyOccurrences pairs r).getLastD 0⟩
        else
          ⟨fuzzyOccurrences pairs r,
            (fuzzyOccurrences pairs r).sum
              / (((fuzzyOccurrences pairs r).length : Nat) : Rat)⟩) := by
  induction pairs using List.reverseRecOn with
  | nil =>
    intro r
    simp [fuzzyAccum, fuzzyOccurrences, natMapGet_nil]
  | append_singleton l a ih =>
    intro r
    have hstep : fuzzyAccum useOr (l ++ [a]) = fuzzyStep useOr (fuzzyAccum useOr l) a := by
      simp [fuzzyAccum, List.foldl_append]
    rw [hstep, fuzzyStep_get, fuzzyOccurrences_append, fuzzyOccurrences_singleton]
    by_cases hr : a.1 = r
    · subst hr
      simp only [beq_self_eq_true, if_true]
      rw [ih a.1]
      cases hprev : (fuzzyOccurrences l a.1).isEmpty
      · have hne2 : ((fuzzyOccurrences l a.1 ++ [a.2]).isEmpty) = false := by simp
        simp only [Bool.false_eq_true, if_false, hne2]
        cases useOr
        · simp only [stepEntry, Bool.false_eq_true, if_false]
        · simp [stepEntry, List.getLastD_concat]
      · have hnil : fuzzyOccurrences l a.1 = [] := by
          cases hv : fuzzyOccurrences l a.1
          · rfl
          · rw [hv] at hprev
            simp at hprev
        rw [hnil]
        cases useOr
        · simp [stepEntry, div_one]
        · simp [stepEntry]
    · have hb : (a.1 == r) = false := by simp [hr]
      simp only [hb, Bool.false_eq_true, if_false, List.append_nil]
      exact ih r


theorem fuzzyMatching_mem (opts : FuzzyOptions) (conds : List JoinCondition)
    (pairs : List (Nat × Rat)) (r : Nat) (s : Rat) :
    (r, s) ∈ fuzzyMatching opts conds pairs ↔
      (fuzzyOccurrences pairs r ≠ []
       ∧ (opts.useOrLogic = true ∨ (fuzzyOccurrences pairs r).length = conds.length)
       ∧ s = (if opts.useOrLogic then (fuzzyOccurrences pairs r).getLastD 0
              else (fuzzyOccurrences pairs r).sum
                / (((fuzzyOccurrences pairs r).length : Nat) : Rat))) := by
  unfold fuzzyMatching
  constructor
  · intro hm
    obtain ⟨ke, hket, hmap⟩ := List.mem_map.mp hm
    obtain ⟨hkm, hkcond⟩ := List.mem_filter.mp hket
    obtain ⟨k0, e0⟩ := ke
    have hk : k0 = r := congrArg Prod.fst hmap
    subst hk
    have hs : e0.avgScore = s := congrArg Prod.snd hmap
    have hget : natMapGet (fuzzyAccum opts.useOrLogic pairs) k0 = some e0 :=
      (natMap_mem_iff_get _ (fuzzyAccum_keys_nodup _ _) k0 e0).mp hkm
    rw [fuzzyAccum_get] at hget
    cases hemp : (fuzzyOccurrences pairs k0).isEmpty
    · rw [hemp] at hget
      simp only [Bool.false_eq_true, if_false, Option.some.injEq] at hget
      have hne : fuzzyOccurrences pairs k0 ≠ [] := by
        intro hc
        rw [hc] at hemp
        simp at hemp
      refine ⟨hne, ?_, ?_⟩
      · cases hOr : opts.useOrLogic
        · right
          rw [hOr] at hkcond hget
          simp only [Bool.false_or] at hkcond
          have hlen : e0.scores.length = conds.length := by
            simpa using hkcond
          rw [← hget] at hlen
          simpa using hlen
        · left
          rfl
      · rw [← hs, ← hget]
        cases hOr : opts.useOrLogic <;> simp [hOr]
    · rw [hemp] at hget
      simp at hget
  · rintro ⟨hne, hcond, hs⟩
    have hemp : (fuzzyOccurrences pairs r).isEmpty = false := by
      cases hv : fuzzyOccurrences pairs r
      · exact absurd hv hne
      · rfl
    have hget : natMapGet (fuzzyAccum opts.useOrLogic pairs) r
        = some (if opts.useOrLogic then
            ⟨[(fuzzyOccurrences pairs r).getLastD 0],
              (fuzzyOccurrences pairs r).getLastD 0⟩
          else
            ⟨fuzzyOccurrences pairs r,
              (fuzzyOccurrences pairs r).sum
                / (((fuzzyOccurrences pairs r).length : Nat) : Rat)⟩) := by
      rw [fuzzyAccum_get, hemp]
      simp
    refine List.mem_map.mpr ⟨(r, if opts.useOrLogic then
        (⟨[(fuzzyOccurrences pairs r).getLastD 0],
          (fuzzyOccurrences pairs r).getLastD 0⟩ : FuzzyEntry)
      else
        ⟨fuzzyOccurrences pairs r,
          (fuzzyOccurrences pairs r).sum
            / (((fuzzyOccurrences pairs r).length : Nat) : Rat)⟩),
      List.mem_filter.mpr ⟨?_, ?_⟩, ?_⟩
    · exact (natMap_mem_iff_get _ (fuzzyAccum_keys_nodup _ _) r _).mpr hget
    · cases hOr : opts.useOrLogic
      · rw [hOr] at hcond
        rcases hcond with hcond | hlen
        · exact absurd hcond (by simp)
        · simp only [hOr, Bool.false_or]
          simp [hlen]
      · simp [hOr]
    · cases hOr : opts.useOrLogic <;> simp only [hOr] at hs ⊢ <;> simp [hs]

theorem insertByScore_perm (x : Nat × Rat) (l : List (Nat × Rat)) :
    (insertByScore x l).Perm (x :: l) := by
  induction l with
  | nil => exact List.Perm.refl _
  | cons y ys ih =>
    by_cases h : x.2 < y.2
    · simp [insertByScore, h]
    · have hstep : insertByScore x (y :: ys) = y :: insertByScore x ys := by
        simp [insertByScore, h]
      rw [hstep]
      exact (ih.cons y).trans (List.Perm.swap x y ys)

theorem sortByScore_perm (l : List (Nat × Rat)) : (sortByScore l).Perm l := by
  induction l with
  | nil => exact List.Perm.refl _
  | cons x xs ih =>
    have hstep : sortByScore (x :: xs) = insertByScore x (sortByScore xs) := rfl
    rw [hstep]
    exact (insertByScore_perm x (sortByScore xs)).trans (ih.cons x)

theorem mem_insertByScore (x z : Nat × Rat) (l : List (Nat × Rat)) :
    z ∈ insertByScore x l ↔ z = x ∨ z ∈ l := by
  rw [(insertByScore_perm x l).mem_iff]
  simp

theorem insertByScore_sorted (x : Nat × Rat) (l : List (Nat × Rat))
    (h : l.Pairwise (fun a b => a.2 ≤ b.2)) :
    (insertByScore x l).Pairwise (fun a b => a.2 ≤ b.2) := by
  induction l with
  | nil => simp [insertByScore]
  | cons y ys ih =>
    rcases List.pairwise_cons.mp h with ⟨hy, hys⟩
    by_cases hxy : x.2 < y.2
    · have hstep : insertByScore x (y :: ys) = x :: y :: ys := by
        simp [insertByScore, hxy]
      rw [hstep]
      refine List.pairwise_cons.mpr ⟨?_, h⟩
      intro z hz
      rcases List.mem_cons.mp hz with he | hm
      · exact he ▸ le_of_lt hxy
      · exact le_trans (le_of_lt hxy) (hy z hm)
    · have hstep : insertByScore x (y :: ys) = y :: insertByScore x ys := by
        simp [insertByScore, hxy]
      rw [hstep]
      refine List.pairwise_cons.mpr ⟨?_, ih hys⟩
      intro z hz
      rcases (mem_insertByScore x z ys).mp hz with he | hm
      · subst he
        exact le_of_not_lt hxy
      · exact hy z hm

theorem sortByScore_sorted (l : List (Nat × Rat)) :
    (sortByScore l).Pairwise (fun a b => a.2 ≤ b.2) := by
  induction l with
  | nil => simp [sortByScore]
  | cons x xs ih => exact insertByScore_sorted x (sortByScore xs) ih

theorem fuzzyAccepted_mem (opts : FuzzyOptions) (conds : List JoinCondition)
    (pairs : List (Nat × Rat)) (r : Nat) (s : Rat) :
    (r, s) ∈ fuzzyAccepted opts conds pairs ↔
      ((r, s) ∈ fuzzyMatching opts conds pairs ∧ s ≤ opts.threshold) := by
  unfold fuzzyAccepted
  rw [List.mem_filter]
  cases hs : opts.sortFuzzyResults
  · simp only [Bool.false_eq_true, if_false]
    simp
  · simp only [if_true]
    rw [(sortByScore_perm (fuzzyMatching opts conds pairs)).mem_iff]
    simp

theorem fuzzyAccepted_sorted (opts : FuzzyOptions) (conds : List JoinCondition)
    (pairs : List (Nat × Rat)) (hsort : opts.sortFuzzyResults = true) :
    (fuzzyAccepted opts conds pairs).Pairwise (fun a b => a.2 ≤ b.2) := by
  unfold fuzzyAccepted
  rw [hsort]
  simp only [if_true]
  exact (sortByScore_sorted _).sublist (List.filter_sublist _)


theorem fuzzyEmit_foldl_out (R : List Row) (jt : JoinType) (t : Option Transform)
    (opts : FuzzyOptions) (lr : Row) :
    ∀ (l : List (Nat × Rat)) (acc : FuzzyAcc),
      (l.foldl (fuzzyEmitStep R jt t opts lr) acc).out
        = acc.out ++ l.map (fun p =>
            if opts.includeScoreInResult
            then attachScore (mergeRows (some lr) (some (rightAt R p.1)) t) p.2
            else mergeRows (some lr) (some (rightAt R p.1)) t) := by
  intro l
  induction l with
  | nil => intro acc; simp
  | cons p rest ih =>
    intro acc
    rw [List.foldl_cons, ih]
    simp [fuzzyEmitStep]

theorem fuzzyEmit_foldl_matched_inner (R : List Row) (t : Option Transform)
    (opts : FuzzyOptions) (lr : Row) :
    ∀ (l : List (Nat × Rat)) (acc : FuzzyAcc),
      (l.foldl (fuzzyEmitStep R JoinType.inner t opts lr) acc).matched
        = acc.matched := by
  intro l
  induction l with
  | nil => intro acc; rfl
  | cons p rest ih =>
    intro acc
    rw [List.foldl_cons, ih]
    simp [fuzzyEmitStep]

theorem fuzzyLeftStep_inner (fsearch : String → String → List (Nat × Rat))
    (R : List Row) (conds : List JoinCondition) (t : Option Transform)
    (opts : FuzzyOptions) (acc : FuzzyAcc) (lr : Row) :
    fuzzyLeftStep fsearch R conds JoinType.inner t opts acc lr
      = ⟨acc.out ++
          (fuzzyAccepted opts conds (conditionMatches fsearch opts conds lr).flatten).map
            (fun p =>
              if opts.includeScoreInResult
              then attachScore (mergeRows (some lr) (some (rightAt R p.1)) t) p.2
              else mergeRows (some lr) (some (rightAt R p.1)) t),
         acc.matched⟩ := by
  unfold fuzzyLeftStep
  by_cases hp : (searchPatterns conds lr).isEmpty = true
  · have hcm : conditionMatches fsearch opts conds lr = [] := by
      unfold conditionMatches
      rw [List.isEmpty_iff.mp hp]
      rfl
    rw [hcm]
    simp only [hp, if_true]
    have : fuzzyAccepted opts conds (List.flatten ([] : List (List (Nat × Rat)))) = [] := by
      unfold fuzzyAccepted fuzzyMatching fuzzyAccum
      cases hs : opts.sortFuzzyResults <;> simp [sortByScore]
    rw [this]
    simp
  · have hp2 : (searchPatterns conds lr).isEmpty = false := by
      cases hv : (searchPatterns conds lr).isEmpty
      · rfl
      · exact absurd hv hp
    simp only [hp2, Bool.false_eq_true, if_false]
    by_cases hcm : (conditionMatches fsearch opts conds lr).isEmpty = true
    · have hcm2 : conditionMatches fsearch opts conds lr = [] := List.isEmpty_iff.mp hcm
      rw [hcm2]
      simp only [List.isEmpty_nil, if_true]
      have : fuzzyAccepted opts conds (List.flatten ([] : List (List (Nat × Rat)))) = [] := by
        unfold fuzzyAccepted fuzzyMatching fuzzyAccum
        cases hs : opts.sortFuzzyResults <;> simp [sortByScore]
      rw [this]
      simp
    · have hcm2 : (conditionMatches fsearch opts conds lr).isEmpty = false := by
        cases hv : (conditionMatches fsearch opts conds lr).isEmpty
        · rfl
        · exact absurd hv hcm
      simp only [hcm2, Bool.false_eq_true, if_false]
      have hxy : ∀ (x y : FuzzyAcc), x.out = y.out → x.matched = y.matched → x = y := by
        intro x y h1 h2
        cases x
        cases y
        simp_all
      exact hxy _ _ (by rw [fuzzyEmit_foldl_out]) (by rw [fuzzyEmit_foldl_matched_inner])

theorem fuzzyJoin_foldl_inner (fsearch : String → String → List (Nat × Rat))
    (R : List Row) (conds : List JoinCondition) (t : Option Transform)
    (opts : FuzzyOptions) :
    ∀ (L : List Row) (acc : FuzzyAcc),
      (L.foldl (fuzzyLeftStep fsearch R conds JoinType.inner t opts) acc).out
        = acc.out ++ L.flatMap (fun lr =>
            (fuzzyAccepted opts conds (conditionMatches fsearch opts conds lr).flatten).map
              (fun p =>
                if opts.includeScoreInResult
                then attachScore (mergeRows (some lr) (some (rightAt R p.1)) t) p.2
                else mergeRows (some lr) (some (rightAt R p.1)) t)) := by
  intro L
  induction L with
  | nil => intro acc; simp
  | cons lr rest ih =>
    intro acc
    rw [List.foldl_cons, fuzzyLeftStep_inner, ih]
    simp


/-- C4 (corrected): in a fuzzy join, per-condition match lists are truncated to
maxResultsPerKey; an inner join emits, for each left row in order, exactly its
accepted matches, merged with the left row, carrying the score under _fuzzyScore
when includeScoreInResult is set; accepted matches are sorted ascending by score
when sortFuzzyResults is set; and a candidate right row is accepted iff it
matched at least one condition, matched all conditions when useOrLogic is false,
and its retained score is at most the threshold — where the retained score is
the score of the LAST condition match processed when useOrLogic is true (every
OR-logic match resets the accumulated entry), and is the average of all
per-condition scores only when useOrLogic is false, not the average
unconditionally as the frozen claim states. -/
theorem fuzzyJoin_acceptance_corrected :
    (∀ (fsearch : String → String → List (Nat × Rat)) (L R : List Row)
        (conds : List JoinCondition) (t : Option Transform) (opts : FuzzyOptions),
      performFuzzyJoin fsearch L R conds JoinType.inner t opts
        = L.flatMap (fun lr =>
            (fuzzyAccepted opts conds
                (conditionMatches fsearch opts conds lr).flatten).map
              (fun p =>
                if opts.includeScoreInResult
                then attachScore (mergeRows (some lr) (some (rightAt R p.1)) t) p.2
                else mergeRows (some lr) (some (rightAt R p.1)) t)))
    ∧ (∀ (opts : FuzzyOptions) (conds : List JoinCondition)
        (pairs : List (Nat × Rat)) (r : Nat) (s : Rat),
      (r, s) ∈ fuzzyAccepted opts conds pairs ↔
        (fuzzyOccurrences pairs r ≠ []
         ∧ (opts.useOrLogic = true ∨ (fuzzyOccurrences pairs r).length = conds.length)
         ∧ s = (if opts.useOrLogic then (fuzzyOccurrences pairs r).getLastD 0
                else (fuzzyOccurrences pairs r).sum
                  / (((fuzzyOccurrences pairs r).length : Nat) : Rat))
         ∧ s ≤ opts.threshold))
    ∧ (∀ (fsearch : String → String → List (Nat × Rat)) (opts : FuzzyOptions)
        (conds : List JoinCondition) (lr : Row) (ms : List (Nat × Rat)),
      ms ∈ conditionMatches fsearch opts conds lr →
        ms.length ≤ opts.maxResultsPerKey)
    ∧ (∀ (opts : FuzzyOptions) (conds : List JoinCondition)
        (pairs : List (Nat × Rat)), opts.sortFuzzyResults = true →
      (fuzzyAccepted opts conds pairs).Pairwise (fun a b => a.2 ≤ b.2)) := by
  refine ⟨?_, ?_, ?_, ?_⟩
  · intro fsearch L R conds t opts
    simp only [performFuzzyJoin,
      show (JoinType.inner == JoinType.right || JoinType.inner == JoinType.full)
        = false from rfl,
      Bool.false_eq_true, if_false]
    rw [fuzzyJoin_foldl_inner]
    simp
  · intro opts conds pairs r s
    rw [fuzzyAccepted_mem, fuzzyMatching_mem]
    tauto
  · intro fsearch opts conds lr ms hms
    obtain ⟨p, hp, hpe⟩ := List.mem_filterMap.mp hms
    by_cases he : (fsearch p.1 (jsToString p.2)).isEmpty = true
    · simp only [he, if_true] at hpe
      exact absurd hpe (by simp)
    · have he2 : (fsearch p.1 (jsToString p.2)).isEmpty = false := by
        cases hv : (fsearch p.1 (jsToString p.2)).isEmpty
        · rfl
        · exact absurd hv he
      simp only [he2, Bool.false_eq_true, if_false, Option.some.injEq] at hpe
      rw [← hpe]
      exact List.length_take_le _ _
  · intro opts conds pairs hsort
    exact fuzzyAccepted_sorted opts conds pairs hsort

/-- C4 counterexample: with OR logic and two conditions, a right row matched by
the first condition with score 1 and by the second with score 0 is accepted at
threshold 0 — the inner join emits one row — although the average of its
per-condition match scores, (1 + 0) / 2, exceeds the threshold: acceptance uses
the score of the last matched condition, not the average of the matched
condition scores. -/
theorem fuzzyJoin_average_counterexample :
    (fuzzyOccurrences
        ((conditionMatches
            (fun k _ => if k == "x" then [(0, (1 : Rat))] else [(0, 0)])
            ⟨0, 5, true, false, false⟩
            [⟨"a", "x", none⟩, ⟨"b", "y", none⟩]
            [("a", JValue.str "p"), ("b", JValue.str "q")]).flatten) 0
      = [1, 0])
    ∧ (performFuzzyJoin
        (fun k _ => if k == "x" then [(0, (1 : Rat))] else [(0, 0)])
        [[("a", JValue.str "p"), ("b", JValue.str "q")]]
        [[("x", JValue.str "u")]]
        [⟨"a", "x", none⟩, ⟨"b", "y", none⟩]
        JoinType.inner none ⟨0, 5, true, false, false⟩).length = 1
    ∧ ¬ ((((1 : Rat) + 0) / 2) ≤ (0 : Rat)) := by
  refine ⟨by decide, by decide, by norm_num⟩


/-! ### Query result store (storeResult / getResultById) -/

/-- Store configuration: the compression threshold and whether compression is
enabled. -/
structure StoreConfig where
  compressionThreshold : Nat
  compressionEnabled : Bool

/-- One database row of the results table as storeResult writes it: the
persisted row_count, storage_type, the JSONB data column (its JSON text, which
the driver parses on read), the data_large bytes (modelled as the byte string,
Buffer.from / toString folded away) and is_compressed. -/
structure DbRecord where
  rowCount : Nat
  storageType : String
  data : Option String
  dataLarge : Option String
  isCompressed : Bool
  deriving DecidableEq

/-- One in-memory cache entry as storeResult writes it: the original structured
data and the row count. -/
structure CacheRecord where
  data : Option JValue
  rowCount : Nat
  deriving DecidableEq

/-- Store state: the in-memory results cache and the database table. -/
structure StoreState where
  cache : List (String × CacheRecord)
  db : List (String × DbRecord)

/-- The result of a fetch: the data field, the row count, and whether it was
served from cache. -/
structure FetchedResult where
  data : Option JValue
  rowCount : Nat
  fromCache : Bool
  deriving DecidableEq

/-- Keyed lookup in an association list (Map.get, or a SELECT by primary key
returning no row as none). -/
def assocGet {α : Type} (m : List (String × α)) (k : String) : Option α :=
  match m.find? (fun p => p.1 == k) with
  | some p => some p.2
  | none => none

/-- Keyed insert-or-replace (Map.set, or an INSERT under a fresh id). -/
def assocSet {α : Type} (m : List (String × α)) (k : String) (v : α) :
    List (String × α) :=
  match m with
  | [] => [(k, v)]
  | (k0, v0) :: rest =>
    if k0 == k then (k0, v) :: rest else (k0, v0) :: assocSet rest k v

theorem assocGet_cons {α : Type} (k0 : String) (v0 : α) (rest : List (String × α))
    (k : String) :
    assocGet ((k0, v0) :: rest) k = if k0 == k then some v0 else assocGet rest k := by
  by_cases h : k0 = k
  · simp [assocGet, List.find?, h]
  · have hb : (k0 == k) = false := by simp [h]
    simp [assocGet, List.find?, hb]

theorem assocGet_assocSet {α : Type} (m : List (String × α)) (k : String) (v : α) :
    assocGet (assocSet m k v) k = some v := by
  induction m with
  | nil => simp [assocSet, assocGet_cons]
  | cons p rest ih =>
    obtain ⟨k0, v0⟩ := p
    by_cases h : k0 = k
    · subst h
      simp only [assocSet, beq_self_eq_true, if_true]
      simp [assocGet_cons]
    · have hb : (k0 == k) = false := by simp [h]
      simp only [assocSet, hb, Bool.false_eq_true, if_false]
      rw [assocGet_cons, hb]
      simp only [Bool.false_eq_true, if_false]
      exact ih

/-- The database record storeResult builds: the data array JSON-serialized,
classified as the large tier when the serialized length strictly exceeds the
threshold, gzip-compressed within that tier iff compression is enabled and kept
as the raw serialized bytes otherwise; below or at the threshold the serialized
structured value goes to the JSONB data column; row_count is data.length, 0
when data is absent. -/
def storedRecord (cfg : StoreConfig) (stringify : JValue → String)
    (gzip : String → String) (rdata : Option (List JValue)) : DbRecord :=
  let dataString := stringify (JValue.arr (rdata.getD []))
  let isLarge : Bool := decide (cfg.compressionThreshold < dataString.length)
  let shouldCompress : Bool := isLarge && cfg.compressionEnabled
  if isLarge then
    ⟨(rdata.getD []).length, "large", none,
      some (if shouldCompress then gzip dataString else dataString), shouldCompress⟩
  else
    ⟨(rdata.getD []).length, "json", some dataString, none, false⟩

/-- Translation of storeResult: writes the database record and caches the
original structured data under the id. -/
def storeResult (cfg : StoreConfig) (stringify : JValue → String)
    (gzip : String → String) (st : StoreState) (id : String)
    (rdata : Option (List JValue)) : StoreState :=
  ⟨assocSet st.cache id ⟨rdata.map JValue.arr, (rdata.getD []).length⟩,
   assocSet st.db id (storedRecord cfg stringify gzip rdata)⟩

/-- Translation of getResultById: the cache is consulted first; otherwise the
database record is decoded according to storage_type and is_compressed — gunzip
then JSON.parse for compressed large data, JSON.parse of the raw bytes for
uncompressed large data, the driver-parsed JSONB text for the json tier; a
missing id is the thrown not-found error. -/
def getResultById (parse : String → Option JValue) (gunzip : String → String)
    (st : StoreState) (id : String) : Option FetchedResult :=
  match assocGet st.cache id with
  | some c => some ⟨c.data, c.rowCount, true⟩
  | none =>
    match assocGet st.db id with
    | none => none
    | some r =>
      let parsedData :=
        if r.storageType == "json" then r.data.bind parse
        else if r.storageType == "large" then
          if r.isCompressed then parse (gunzip (r.dataLarge.getD ""))
          else parse (r.dataLarge.getD "")
        else none
      some ⟨parsedData, r.rowCount, false⟩


/-- C8: the record a store call persists is classified into the large tier iff
the serialized length of its data strictly exceeds the configured threshold,
and into the json (inline) tier otherwise; within the large tier the stored
bytes are the gzip of the serialized text iff compression is enabled, the raw
serialized text otherwise; at or below the threshold the serialized structured
value sits in the data column; and the persisted row_count is the length of the
data array measured at store time (0 when data is absent). -/
theorem storeResult_tier_classification (cfg : StoreConfig)
    (stringify : JValue → String) (gzip : String → String) (st : StoreState)
    (id : String) (rdata : Option (List JValue)) :
    assocGet (storeResult cfg stringify gzip st id rdata).db id
      = some (storedRecord cfg stringify gzip rdata)
    ∧ ((storedRecord cfg stringify gzip rdata).storageType = "large"
        ↔ cfg.compressionThreshold < (stringify (JValue.arr (rdata.getD []))).length)
    ∧ ((storedRecord cfg stringify gzip rdata).storageType = "json"
        ↔ ¬ cfg.compressionThreshold < (stringify (JValue.arr (rdata.getD []))).length)
    ∧ ((storedRecord cfg stringify gzip rdata).isCompressed = true
        ↔ (cfg.compressionThreshold < (stringify (JValue.arr (rdata.getD []))).length
           ∧ cfg.compressionEnabled = true))
    ∧ (cfg.compressionThreshold < (stringify (JValue.arr (rdata.getD []))).length →
        (storedRecord cfg stringify gzip rdata).dataLarge
          = some (if cfg.compressionEnabled
              then gzip (stringify (JValue.arr (rdata.getD [])))
              else stringify (JValue.arr (rdata.getD [])))
        ∧ (storedRecord cfg stringify gzip rdata).data = none)
    ∧ (¬ cfg.compressionThreshold < (stringify (JValue.arr (rdata.getD []))).length →
        (storedRecord cfg stringify gzip rdata).data
          = some (stringify (JValue.arr (rdata.getD [])))
        ∧ (storedRecord cfg stringify gzip rdata).dataLarge = none)
    ∧ (storedRecord cfg stringify gzip rdata).rowCount = (rdata.getD []).length := by
  refine ⟨?_, ?_, ?_, ?_, ?_, ?_, ?_⟩
  · simp only [storeResult]
    exact assocGet_assocSet _ _ _
  · by_cases h : cfg.compressionThreshold < (stringify (JValue.arr (rdata.getD []))).length <;>
      simp [storedRecord, h]
  · by_cases h : cfg.compressionThreshold < (stringify (JValue.arr (rdata.getD []))).length <;>
      simp [storedRecord, h]
  · by_cases h : cfg.compressionThreshold < (stringify (JValue.arr (rdata.getD []))).length <;>
      cases hc : cfg.compressionEnabled <;> simp [storedRecord, h, hc]
  · intro h
    cases hc : cfg.compressionEnabled <;> simp [storedRecord, h, hc]
  · intro h
    simp [storedRecord, h]
  · by_cases h : cfg.compressionThreshold < (stringify (JValue.arr (rdata.getD []))).length <;>
      simp [storedRecord, h]

/-- C2: serialization, optional compression, decompression and decoding compose
to the identity on a stored row set: for any rows whose serialization the
supplied parse inverts and whose gzip the supplied gunzip inverts (JSON.parse /
JSON.stringify and gunzipSync / gzipSync being external library inverses),
fetching the stored id returns a data field equal to the stored rows — from the
in-memory cache directly after the store, and through the database decode path,
for every storage tier and compression setting, whenever the cache does not
hold the id. -/
theorem storeFetch_roundtrip (cfg : StoreConfig) (stringify : JValue → String)
    (parse : String → Option JValue) (gzip gunzip : String → String)
    (st : StoreState) (id : String) (rows : List JValue)
    (hparse : parse (stringify (JValue.arr rows)) = some (JValue.arr rows))
    (hzip : gunzip (gzip (stringify (JValue.arr rows)))
      = stringify (JValue.arr rows)) :
    getResultById parse gunzip (storeResult cfg stringify gzip st id (some rows)) id
      = some ⟨some (JValue.arr rows), rows.length, true⟩
    ∧ getResultById parse gunzip
        ⟨[], (storeResult cfg stringify gzip st id (some rows)).db⟩ id
      = some ⟨some (JValue.arr rows), rows.length, false⟩ := by
  constructor
  · simp only [getResultById, storeResult]
    rw [assocGet_assocSet]
    rfl
  · simp only [getResultById, storeResult]
    rw [show assocGet ([] : List (String × CacheRecord)) id = none from rfl]
    rw [assocGet_assocSet]
    by_cases h : cfg.compressionThreshold < (stringify (JValue.arr rows)).length
    · cases hc : cfg.compressionEnabled
      · simp [storedRecord, h, hc, hparse]
      · simp [storedRecord, h, hc, hparse, hzip]
    · simp [storedRecord, h, hparse]

/-- Concrete store round trip through both the cache-hit and database decode
paths, on the inline tier with an indicator-function parse inverting the
canonical serializer. -/
theorem storeFetch_roundtrip_witness :
    (((fun s => if s == canonicalJson (JValue.arr [JValue.obj [("a", JValue.num 1)]])
          then some (JValue.arr [JValue.obj [("a", JValue.num 1)]])
          else none) : String → Option JValue)
        (canonicalJson (JValue.arr [JValue.obj [("a", JValue.num 1)]]))
      = some (JValue.arr [JValue.obj [("a", JValue.num 1)]])
    ∧ ((fun s => s) : String → String)
        (((fun s => s) : String → String)
          (canonicalJson (JValue.arr [JValue.obj [("a", JValue.num 1)]])))
      = canonicalJson (JValue.arr [JValue.obj [("a", JValue.num 1)]]))
    ∧ (getResultById
        (fun s => if s == canonicalJson (JValue.arr [JValue.obj [("a", JValue.num 1)]])
          then some (JValue.arr [JValue.obj [("a", JValue.num 1)]])
          else none)
        (fun s => s)
        (storeResult ⟨100, true⟩ canonicalJson (fun s => s) ⟨[], []⟩ "id1"
          (some [JValue.obj [("a", JValue.num 1)]])) "id1"
      = some ⟨some (JValue.arr [JValue.obj [("a", JValue.num 1)]]), 1, true⟩
    ∧ getResultById
        (fun s => if s == canonicalJson (JValue.arr [JValue.obj [("a", JValue.num 1)]])
          then some (JValue.arr [JValue.obj [("a", JValue.num 1)]])
          else none)
        (fun s => s)
        ⟨[], (storeResult ⟨100, true⟩ canonicalJson (fun s => s) ⟨[], []⟩ "id1"
          (some [JValue.obj [("a", JValue.num 1)]])).db⟩ "id1"
      = some ⟨some (JValue.arr [JValue.obj [("a", JValue.num 1)]]), 1, false⟩) := by
  refine ⟨⟨by simp, rfl⟩, ?_⟩
  exact storeFetch_roundtrip ⟨100, true⟩ canonicalJson _ (fun s => s) (fun s => s)
    ⟨[], []⟩ "id1" [JValue.obj [("a", JValue.num 1)]] (by simp) rfl


/-! ### Result tracking (processResultTracking / buildPreviousResultsIndex) -/

/-- A previous execution record as getPreviousExecutionsWithResults returns it:
id, parsed results (absent or non-array results are skipped) and the completed
and started timestamps (null or undefined modelled as none). -/
structure Execution where
  id : String
  results : Option (List Row)
  completedAt : Option String
  startedAt : String
  deriving DecidableEq

/-- The timestamp an execution contributes: completed_at falling back to
started_at. -/
def seenAt (e : Execution) : String := e.completedAt.getD e.startedAt

/-- One entry of the previous-results index. -/
structure IndexEntry where
  count : Nat
  firstSeen : String
  lastSeen : String
  executionIds : List String
  sampleData : Row
  deriving DecidableEq

theorem assocGet_assocSet_general {α : Type} (m : List (String × α)) (k : String)
    (v : α) (r : String) :
    assocGet (assocSet m k v) r = if k == r then some v else assocGet m r := by
  induction m with
  | nil =>
    by_cases h : k = r
    · simp [assocSet, assocGet_cons, h]
    · have hb : (k == r) = false := by simp [h]
      simp [assocSet, assocGet_cons, hb, assocGet]
  | cons p rest ih =>
    obtain ⟨k0, v0⟩ := p
    by_cases h1 : k0 = k
    · subst h1
      simp only [assocSet, beq_self_eq_true, if_true]
      by_cases h2 : k0 = r <;> simp [assocGet_cons, h2]
    · have hb1 : (k0 == k) = false := by simp [h1]
      simp only [assocSet, hb1, Bool.false_eq_true, if_false]
      by_cases h2 : k0 = r
      · have h0 : ¬ k = r := fun hh => h1 (h2.trans hh.symm)
        simp [assocGet_cons, h2, h0]
      · simp [assocGet_cons, h2, ih]

/-- One step of the index build for one (execution, row) pair: an existing
entry gets its count bumped, its lastSeen refreshed and the execution id
appended; a fresh signature creates a new entry keeping the row as sample. -/
def indexStep (hash : String → String) (opts : TrackingOptions)
    (m : List (String × IndexEntry)) (er : Execution × Row) :
    List (String × IndexEntry) :=
  let signature := generateRowSignature hash er.2 opts
  match assocGet m signature with
  | some e =>
    assocSet m signature
      ⟨e.count + 1, e.firstSeen, seenAt er.1, e.executionIds ++ [er.1.id], e.sampleData⟩
  | none =>
    assocSet m signature ⟨1, seenAt er.1, seenAt er.1, [er.1.id], er.2⟩

/-- The (execution, row) pairs the nested index loops iterate, skipping
executions without an array of results. -/
def execRowPairs (execs : List Execution) : List (Execution × Row) :=
  execs.flatMap (fun e =>
    match e.results with
    | some rs => rs.map (fun r => (e, r))
    | none => [])

/-- Translation of buildPreviousResultsIndex. -/
def buildPreviousResultsIndex (hash : String → String) (execs : List Execution)
    (opts : TrackingOptions) : List (String × IndexEntry) :=
  (execRowPairs execs).foldl (indexStep hash opts) []

/-- The default pair for head and last selections on occurrence lists that are
known to be non-empty. -/
def noExecRow : Execution × Row := (⟨"", none, none, ""⟩, [])

/-- The _tracking annotation attached to one current row. -/
def trackingValue (hash : String → String) (opts : TrackingOptions)
    (index : List (String × IndexEntry)) (now : String) (row : Row) : JValue :=
  let signature := generateRowSignature hash row opts
  match assocGet index signature with
  | some occ => .obj
      [("isNew", .bool false),
       ("signature", .str signature),
       ("firstSeen", .str occ.firstSeen),
       ("occurrenceCount", .num ((occ.count + 1 : Nat) : Rat)),
       ("lastSeenBefore", .str occ.lastSeen),
       ("executionIds", .arr (occ.executionIds.map JValue.str))]
  | none => .obj
      [("isNew", .bool true),
       ("signature", .str signature),
       ("firstSeen", .str now),
       ("occurrenceCount", .num 1),
       ("lastSeenBefore", .null),
       ("executionIds", .arr [])]

/-- JavaScript Math.round on a non-negative rational: floor of x + 1/2. -/
def jsRound (x : Rat) : Int := Int.floor (x + 1 / 2)

/-- The summary statistics of a tracking pass; newRowPercentage is none when
there are no current rows (NaN in the source). -/
structure TrackingStats where
  totalRows : Nat
  newRows : Nat
  previouslySeenRows : Nat
  executionsSearched : Nat
  newRowPercentage : Option Int
  deriving DecidableEq

/-- The marking loop body of processResultTracking: appends the annotated row
and bumps the new or previously-seen counter. -/
def markStep (hash : String → String) (opts : TrackingOptions)
    (index : List (String × IndexEntry)) (now : String)
    (acc : List Row × Nat × Nat) (row : Row) : List Row × Nat × Nat :=
  let signature := generateRowSignature hash row opts
  let marked := Row.setProp row "_tracking" (trackingValue hash opts index now row)
  match assocGet index signature with
  | some _ => (acc.1 ++ [marked], acc.2.1, acc.2.2 + 1)
  | none => (acc.1 ++ [marked], acc.2.1 + 1, acc.2.2)

/-- Translation of processResultTracking: builds the index from the previous
executions, marks the current rows and returns them with the summary. -/
def processResultTracking (hash : String → String) (now : String)
    (execs : List Execution) (opts : TrackingOptions)
    (currentResults : List Row) : List Row × TrackingStats :=
  let index := buildPreviousResultsIndex hash execs opts
  let res := currentResults.foldl (markStep hash opts index now) ([], 0, 0)
  (res.1,
   ⟨currentResults.length, res.2.1, res.2.2, execs.length,
     if currentResults.length == 0 then none
     else some (jsRound ((res.2.1 : Rat) / (currentResults.length : Rat) * 100))⟩)


/-- The prior (execution, row) pairs whose row hashes to a given signature, in
iteration order. -/
def sigOccs (hash : String → String) (opts : TrackingOptions)
    (pairs : List (Execution × Row)) (sig : String) : List (Execution × Row) :=
  pairs.filter (fun er => generateRowSignature hash er.2 opts == sig)

theorem sigOccs_append (hash : String → String) (opts : TrackingOptions)
    (p1 p2 : List (Execution × Row)) (sig : String) :
    sigOccs hash opts (p1 ++ p2) sig
      = sigOccs hash opts p1 sig ++ sigOccs hash opts p2 sig := by
  simp [sigOccs, List.filter_append]

theorem sigOccs_singleton (hash : String → String) (opts : TrackingOptions)
    (a : Execution × Row) (sig : String) :
    sigOccs hash opts [a] sig
      = if generateRowSignature hash a.2 opts == sig then [a] else [] := by
  cases h : (generateRowSignature hash a.2 opts == sig) <;>
    simp [sigOccs, List.filter_cons, h]

theorem indexFold_get (hash : String → String) (opts : TrackingOptions)
    (pairs : List (Execution × Row)) : ∀ (sig : String),
    assocGet (pairs.foldl (indexStep hash opts) []) sig =
      (if (sigOccs hash opts pairs sig).isEmpty then none
       else some
        ⟨(sigOccs hash opts pairs sig).length,
         seenAt ((sigOccs hash opts pairs sig).headD noExecRow).1,
         seenAt ((sigOccs hash opts pairs sig).getLastD noExecRow).1,
         (sigOccs hash opts pairs sig).map (fun er => er.1.id),
         ((sigOccs hash opts pairs sig).headD noExecRow).2⟩) := by
  induction pairs using List.reverseRecOn with
  | nil =>
    intro sig
    simp [sigOccs, assocGet]
  | append_singleton l a ih =>
    intro sig
    have hstep : (l ++ [a]).foldl (indexStep hash opts) ([] : List (String × IndexEntry))
        = indexStep hash opts (l.foldl (indexStep hash opts) []) a := by
      simp [List.foldl_append]
    rw [hstep, sigOccs_append, sigOccs_singleton]
    have iha := ih (generateRowSignature hash a.2 opts)
    by_cases hr : generateRowSignature hash a.2 opts = sig
    · subst hr
      simp only [beq_self_eq_true, if_true]
      cases hocc : sigOccs hash opts l (generateRowSignature hash a.2 opts) with
      | nil =>
        rw [hocc] at iha
        simp only [List.isEmpty_nil, if_true] at iha
        have hst : indexStep hash opts (l.foldl (indexStep hash opts) []) a
            = assocSet (l.foldl (indexStep hash opts) [])
                (generateRowSignature hash a.2 opts)
                ⟨1, seenAt a.1, seenAt a.1, [a.1.id], a.2⟩ := by
          simp only [indexStep, iha]
        rw [hst, assocGet_assocSet]
        simp
      | cons o rest =>
        rw [hocc] at iha
        simp only [List.isEmpty_cons, Bool.false_eq_true, if_false] at iha
        have hst : indexStep hash opts (l.foldl (indexStep hash opts) []) a
            = assocSet (l.foldl (indexStep hash opts) [])
                (generateRowSignature hash a.2 opts)
                ⟨(o :: rest).length + 1,
                 seenAt ((o :: rest).headD noExecRow).1,
                 seenAt a.1,
                 (o :: rest).map (fun er => er.1.id) ++ [a.1.id],
                 ((o :: rest).headD noExecRow).2⟩ := by
          simp only [indexStep, iha]
        rw [hst, assocGet_assocSet]
        have hlast : ((o :: rest) ++ [a]).getLastD noExecRow = a :=
          List.getLastD_concat _ _ _
        have hlen : ((o :: rest) ++ [a]).length = (o :: rest).length + 1 := by
          simp
        have hmap : ((o :: rest) ++ [a]).map (fun er => er.1.id)
            = (o :: rest).map (fun er => er.1.id) ++ [a.1.id] := by
          simp
        have hemp : (((o :: rest) ++ [a]).isEmpty) = false := by simp
        simp only [hemp, Bool.false_eq_true, if_false, hlen, hlast, hmap,
          Option.some.injEq]
        rfl
    · have hb : (generateRowSignature hash a.2 opts == sig) = false := by simp [hr]
      simp only [hb, Bool.false_eq_true, if_false, List.append_nil]
      cases hg : assocGet (l.foldl (indexStep hash opts) []) (generateRowSignature hash a.2 opts) with
      | none =>
        have hst : indexStep hash opts (l.foldl (indexStep hash opts) []) a
            = assocSet (l.foldl (indexStep hash opts) [])
                (generateRowSignature hash a.2 opts)
                ⟨1, seenAt a.1, seenAt a.1, [a.1.id], a.2⟩ := by
          simp only [indexStep, hg]
        rw [hst, assocGet_assocSet_general, hb]
        simp only [Bool.false_eq_true, if_false]
        exact ih sig
      | some e =>
        have hst : indexStep hash opts (l.foldl (indexStep hash opts) []) a
            = assocSet (l.foldl (indexStep hash opts) [])
                (generateRowSignature hash a.2 opts)
                ⟨e.count + 1, e.firstSeen, seenAt a.1,
                 e.executionIds ++ [a.1.id], e.sampleData⟩ := by
          simp only [indexStep, hg]
        rw [hst, assocGet_assocSet_general, hb]
        simp only [Bool.false_eq_true, if_false]
        exact ih sig

theorem markFold (hash : String → String) (opts : TrackingOptions)
    (index : List (String × IndexEntry)) (now : String) :
    ∀ (rows : List Row) (acc : List Row × Nat × Nat),
      rows.foldl (markStep hash opts index now) acc
        = (acc.1 ++ rows.map (fun row =>
              Row.setProp row "_tracking" (trackingValue hash opts index now row)),
           acc.2.1 + (rows.filter (fun row =>
              (assocGet index (generateRowSignature hash row opts)).isNone)).length,
           acc.2.2 + (rows.filter (fun row =>
              (assocGet index (generateRowSignature hash row opts)).isSome)).length) := by
  intro rows
  induction rows with
  | nil => intro acc; simp
  | cons row rest ih =>
    intro acc
    rw [List.foldl_cons]
    cases hg : assocGet index (generateRowSignature hash row opts)
    · have hstep : markStep hash opts index now acc row
          = (acc.1 ++ [Row.setProp row "_tracking" (trackingValue hash opts index now row)],
             acc.2.1 + 1, acc.2.2) := by
        simp only [markStep, hg]
      rw [hstep, ih]
      simp only [List.filter_cons, hg, Option.isNone_none, Option.isSome_none,
        Bool.false_eq_true, if_true, if_false, List.map_cons, List.length_cons,
        Prod.mk.injEq]
      refine ⟨by simp, ?_, ?_⟩ <;> first | trivial | rw [Nat.add_assoc, Nat.add_comm 1]
    · have hstep : markStep hash opts index now acc row
          = (acc.1 ++ [Row.setProp row "_tracking" (trackingValue hash opts index now row)],
             acc.2.1, acc.2.2 + 1) := by
        simp only [markStep, hg]
      rw [hstep, ih]
      simp only [List.filter_cons, hg, Option.isNone_some, Option.isSome_some,
        Bool.false_eq_true, if_true, if_false, List.map_cons, List.length_cons,
        Prod.mk.injEq]
      refine ⟨by simp, ?_, ?_⟩ <;> first | trivial | rw [Nat.add_assoc, Nat.add_comm 1]


/-- C5: result tracking. The previous-results index maps a signature to an
entry exactly when some prior (execution, row) pair hashes to it, and that
entry counts those pairs, keeps the first and last timestamps in iteration
order and collects every execution id. Each current row is annotated under
_tracking: when its signature is indexed, isNew false, occurrenceCount equal to
the indexed count plus one, and firstSeen, lastSeenBefore and executionIds
copied from the index; otherwise isNew true, occurrenceCount one, firstSeen the
current time. The returned rows are the annotated rows in order, and the
summary reports the total, the new and previously seen counts, the searched
execution count, and the new-row percentage rounded to the nearest integer
(none for an empty result set, where the source computes NaN). -/
theorem processResultTracking_spec :
    (∀ (hash : String → String) (opts : TrackingOptions) (execs : List Execution)
        (sig : String),
      assocGet (buildPreviousResultsIndex hash execs opts) sig =
        (if (sigOccs hash opts (execRowPairs execs) sig).isEmpty then none
         else some
          ⟨(sigOccs hash opts (execRowPairs execs) sig).length,
           seenAt ((sigOccs hash opts (execRowPairs execs) sig).headD noExecRow).1,
           seenAt ((sigOccs hash opts (execRowPairs execs) sig).getLastD noExecRow).1,
           (sigOccs hash opts (execRowPairs execs) sig).map (fun er => er.1.id),
           ((sigOccs hash opts (execRowPairs execs) sig).headD noExecRow).2⟩))
    ∧ (∀ (hash : String → String) (opts : TrackingOptions)
        (index : List (String × IndexEntry)) (now : String) (row : Row)
        (occ : IndexEntry),
      (assocGet index (generateRowSignature hash row opts) = some occ →
        trackingValue hash opts index now row = .obj
          [("isNew", .bool false),
           ("signature", .str (generateRowSignature hash row opts)),
           ("firstSeen", .str occ.firstSeen),
           ("occurrenceCount", .num ((occ.count + 1 : Nat) : Rat)),
           ("lastSeenBefore", .str occ.lastSeen),
           ("executionIds", .arr (occ.executionIds.map JValue.str))])
      ∧ (assocGet index (generateRowSignature hash row opts) = none →
        trackingValue hash opts index now row = .obj
          [("isNew", .bool true),
           ("signature", .str (generateRowSignature hash row opts)),
           ("firstSeen", .str now),
           ("occurrenceCount", .num 1),
           ("lastSeenBefore", .null),
           ("executionIds", .arr [])]))
    ∧ (∀ (hash : String → String) (now : String) (execs : List Execution)
        (opts : TrackingOptions) (rows : List Row),
      (processResultTracking hash now execs opts rows).1
        = rows.map (fun row => Row.setProp row "_tracking"
            (trackingValue hash opts (buildPreviousResultsIndex hash execs opts)
              now row)))
    ∧ (∀ (hash : String → String) (now : String) (execs : List Execution)
        (opts : TrackingOptions) (rows : List Row),
      (processResultTracking hash now execs opts rows).2
        = ⟨rows.length,
           (rows.filter (fun row =>
             (assocGet (buildPreviousResultsIndex hash execs opts)
               (generateRowSignature hash row opts)).isNone)).length,
           (rows.filter (fun row =>
             (assocGet (buildPreviousResultsIndex hash execs opts)
               (generateRowSignature hash row opts)).isSome)).length,
           execs.length,
           if rows.length == 0 then none
           else some (jsRound
             (((rows.filter (fun row =>
                 (assocGet (buildPreviousResultsIndex hash execs opts)
                   (generateRowSignature hash row opts)).isNone)).length : Rat)
               / (rows.length : Rat) * 100))⟩) := by
  refine ⟨?_, ?_, ?_, ?_⟩
  · intro hash opts execs sig
    exact indexFold_get hash opts (execRowPairs execs) sig
  · intro hash opts index now row occ
    constructor
    · intro h
      simp only [trackingValue, h]
    · intro h
      simp only [trackingValue, h]
  · intro hash now execs opts rows
    simp only [processResultTracking]
    rw [markFold]
    simp
  · intro hash now execs opts rows
    simp only [processResultTracking]
    rw [markFold]
    simp


end QM
